import Mathlib

/-!
# Verification of the tree-reconciliation / rendering engine

Shallow embedding of the repository's two renderers:

* the Didact-style renderer of `src/build-your-own-react/createElement.js`
  (`reconcileChildren`, `commitRoot`/`commitWork`, `updateDom`, `render` and the
  module-level scheduler state), and
* the React-like renderer of `unnamed/part_004` together with `fiber.js`
  (`unnamed/part_001`), `src/dom.js` and `src/listenToAllEvents.js`
  (`renderRootSync`, `beginWork`, `completeWork`, `appendChildren`,
  `setInitialProps`, `diffProperties`, `accumulateListeners`, `dispatchEvent`).

JavaScript values are modelled by the inductive `BVal`; JS objects are
association lists in insertion order (a real JS object never holds a duplicate
key, so theorems that need it assume key lists are duplicate-free).  Host-DOM
mutations are modelled as explicit traces, and statements that can throw a
`TypeError` in JS return `Option`/an explicit crash outcome.  Functions
(function components, class `render` methods, event handlers) are referenced
through numeric identifiers resolved by an environment, mirroring how the
source stores them as opaque callables.
-/

/-- The `type` field of a React element in `part_004`: a host tag string, a
function component, or a class component (`type.isReactComponent`).  Component
code is referenced by a numeric id resolved in a `CompEnv`. -/
inductive BTy : Type where
  | host (s : String) : BTy
  | fnComp (id : Nat) : BTy
  | clsComp (id : Nat) : BTy

deriving instance DecidableEq for BTy

mutual

/-- JS values as used by the engine: `undefined`, `null`, strings, (integer)
numbers, booleans, plain objects (insertion-ordered field lists), opaque
functions (numeric ids), the no-op function installed by `SyntheticEvent`, and
React element objects `{type, props, key}`. -/
inductive BVal : Type where
  | vUndefined : BVal
  | vNull : BVal
  | vStr (s : String) : BVal
  | vNum (n : Int) : BVal
  | vBool (b : Bool) : BVal
  | vObj (fields : BFields) : BVal
  | vFun (id : Nat) : BVal
  | vNoop : BVal
  | vElem (ty : BTy) (props : BFields) (key : BVal) : BVal

/-- The ordered field list of a JS object (`BFields` is mutually inductive
with `BVal` so that equality of values is decidable by structural
recursion). -/
inductive BFields : Type where
  | fnil : BFields
  | fcons (k : String) (v : BVal) (rest : BFields) : BFields

end

deriving instance DecidableEq for BVal

/-- View a field list as an ordinary association list. -/
def BFields.toList : BFields → List (String × BVal)
  | .fnil => []
  | .fcons k v rest => (k, v) :: rest.toList

/-- Build a field list from an association list. -/
def BFields.ofList : List (String × BVal) → BFields
  | [] => .fnil
  | (k, v) :: rest => .fcons k v (BFields.ofList rest)

/-- A JS object literal. -/
def BVal.obj (l : List (String × BVal)) : BVal := .vObj (BFields.ofList l)

/-- JS truthiness, as used by `if (newProps[k])`, `if (!nextChildren)`,
`if (listener)` and friends. -/
def truthy : BVal → Bool
  | .vUndefined => false
  | .vNull => false
  | .vStr s => s ≠ ""
  | .vNum n => n ≠ 0
  | .vBool b => b
  | .vObj _ => true
  | .vFun _ => true
  | .vNoop => true
  | .vElem _ _ _ => true

/-- `obj[k]` on an association-list object: the first binding wins (a JS object
has unique keys); a missing key reads as `undefined`. -/
def propLookup (fields : List (String × BVal)) (k : String) : BVal :=
  match fields.find? (fun kv => kv.1 = k) with
  | some kv => kv.2
  | none => .vUndefined

/-- `k in obj`. -/
def hasKey (fields : List (String × BVal)) (k : String) : Bool :=
  fields.any (fun kv => kv.1 = k)

/-- `obj[k] = v` on an association-list object: overwrite in place if the key
exists, else append (JS insertion-order semantics). -/
def setField (fields : List (String × BVal)) (k : String) (v : BVal) :
    List (String × BVal) :=
  if hasKey fields k then
    fields.map (fun kv => if kv.1 = k then (k, v) else kv)
  else fields ++ [(k, v)]

/-- `Object.entries(v)` as used on props/style values: a plain object yields
its fields, anything else contributes no entries (the engine only ever spreads
object-valued `style`/state here). -/
def asFields : BVal → List (String × BVal)
  | .vObj fs => fs.toList
  | _ => []

/-- `s.startsWith(pre)` (kernel-reducible formulation over character lists). -/
def strStarts (s pre : String) : Bool := pre.data.isPrefixOf s.data

/-- `name.toLowerCase().substring(2)`, as used to turn an `on…` prop name into
a native event type (`onClick` ↦ `click`). -/
def eventTypeOf (name : String) : String :=
  String.mk ((name.data.map Char.toLower).drop 2)

/-! ## `src/dom.js` — `diffProperties` -/

/-- One iteration of the first loop of `diffProperties` (`src/dom.js` lines
97–112) on the state `(updatePayload, styleUpdates)`: a key whose value in
`newProps` is falsy is scheduled for clearing — `style` is cleared per sub-key
into `styleUpdates`, event-handler (`on…`) keys and `children` are skipped,
every other key is pushed as `(k, null)`. -/
def diffOldStep (newProps : List (String × BVal))
    (acc : List (String × BVal) × List (String × BVal)) (kv : String × BVal) :
    List (String × BVal) × List (String × BVal) :=
  let k := kv.1
  let v := kv.2
  if truthy (propLookup newProps k) then acc
  else if k = "style" then
    (acc.1, (asFields v).foldl (fun st skv => setField st skv.1 (.vStr "")) acc.2)
  else if strStarts k "on" ∨ k = "children" then acc
  else (acc.1 ++ [(k, .vNull)], acc.2)

/-- Second loop of `diffProperties` (`src/dom.js` lines 115–154) acting on a
state `(updatePayload, styleUpdates)`: for each new entry, skip when identical
(`===`) to the old value; diff `style` per sub-key (or wholesale replace
`styleUpdates` when there was no old style); include `children` only when it is
a primitive payload; skip `on…` keys; push everything else. -/
def diffNewStep (oldProps : List (String × BVal))
    (acc : List (String × BVal) × List (String × BVal)) (kv : String × BVal) :
    List (String × BVal) × List (String × BVal) :=
  let k := kv.1
  let v := kv.2
  let lastProp := propLookup oldProps k
  if v = lastProp then acc
  else if k = "style" then
    if truthy lastProp then
      let st1 := (asFields lastProp).foldl
        (fun st skv =>
          if truthy (propLookup (asFields v) skv.1) then st
          else setField st skv.1 (.vStr "")) acc.2
      let st2 := (asFields v).foldl
        (fun st skv =>
          if skv.2 = propLookup (asFields lastProp) skv.1 then st
          else setField st skv.1 skv.2) st1
      (acc.1, st2)
    else (acc.1, asFields v)
  else if k = "children" then
    match v with
    | .vStr _ => (acc.1 ++ [(k, v)], acc.2)
    | .vNum _ => (acc.1 ++ [(k, v)], acc.2)
    | _ => acc
  else if strStarts k "on" then acc
  else (acc.1 ++ [(k, v)], acc.2)

/-- `diffProperties(oldProps, newProps)` from `src/dom.js` lines 93–161.
The flat alternating name/value array is modelled as a list of
`(name, value)` pairs; `null` is returned as `none`. -/
def diffProperties (oldProps newProps : List (String × BVal)) :
    Option (List (String × BVal)) :=
  let acc0 := oldProps.foldl (diffOldStep newProps) ([], [])
  let acc1 := newProps.foldl (diffNewStep oldProps) acc0
  let payload :=
    if acc1.2 ≠ [] then acc1.1 ++ [("style", BVal.obj acc1.2)] else acc1.1
  if payload ≠ [] then some payload else none

/-! ## Host-DOM mutations

Calls into the host adapter are recorded as an explicit trace. -/

/-- One host-DOM mutation: a property assignment `dom[name] = v`, a style
sub-key assignment, a text-content assignment, an event-listener
attach/detach, or a child append/remove (nodes are identified by numeric
ids). -/
inductive DomMut : Type where
  | setProp (dom : Nat) (k : String) (v : BVal) : DomMut
  | setStyle (dom : Nat) (k : String) (v : BVal) : DomMut
  | setText (dom : Nat) (v : BVal) : DomMut
  | addListener (dom : Nat) (eventType : String) (handler : BVal) : DomMut
  | removeListener (dom : Nat) (eventType : String) (handler : BVal) : DomMut
  | appendChild (parent child : Nat) : DomMut
  | removeChild (parent child : Nat) : DomMut

deriving instance DecidableEq for DomMut

/-! ## Didact renderer (`src/build-your-own-react/createElement.js`) -/

/-- `isEvent` (line 89): property names starting with `on`. -/
def isEvent (k : String) : Bool := strStarts k "on"

/-- `isProperty` (line 91): every key except `children` and event keys. -/
def isProperty (k : String) : Bool := k ≠ "children" && !isEvent k

/-- `updateDom(dom, prevProps, nextProps)` (lines 104–137): remove old
properties (`dom[name] = ''`), set new or changed properties, detach removed
or changed event listeners, attach new or changed event listeners — in that
order.  `isNew` (`prev[key] !== next[key]`) is modelled as structural
inequality of the two values, which agrees with JS `!==` on primitives and on
a re-rendered identical props object. -/
def updateDom (dom : Nat) (prevProps nextProps : List (String × BVal)) :
    List DomMut :=
  (((prevProps.map Prod.fst).filter isProperty).filter
      (fun k => !hasKey nextProps k)).map
    (fun k => DomMut.setProp dom k (.vStr "")) ++
  (((nextProps.map Prod.fst).filter isProperty).filter
      (fun k => propLookup prevProps k ≠ propLookup nextProps k)).map
    (fun k => DomMut.setProp dom k (propLookup nextProps k)) ++
  (((prevProps.map Prod.fst).filter isEvent).filter
      (fun k => !hasKey nextProps k ∨
        propLookup prevProps k ≠ propLookup nextProps k)).map
    (fun k => DomMut.removeListener dom (eventTypeOf k) (propLookup prevProps k)) ++
  (((nextProps.map Prod.fst).filter isEvent).filter
      (fun k => propLookup prevProps k ≠ propLookup nextProps k)).map
    (fun k => DomMut.addListener dom (eventTypeOf k) (propLookup nextProps k))

/-- Didact commit-phase effect tags (`effectTag`). -/
inductive EffTag : Type where
  | PLACEMENT : EffTag
  | UPDATE : EffTag
  | DELETION : EffTag

deriving instance DecidableEq for EffTag

mutual

/-- A committed Didact fiber as seen by `commitWork`: its host node (`dom`,
possibly `null`), its effect tag (possibly absent), its props, the props of
its `alternate` (absent when `alternate` is `null`), and its children (the
`child`/`sibling` chain). -/
inductive DFiber : Type where
  | mk (dom : Option Nat) (effectTag : Option EffTag)
      (props : List (String × BVal)) (altProps : Option (List (String × BVal)))
      (children : DKids) : DFiber

/-- A chain of sibling Didact fibers (mutually inductive with `DFiber` so
that the commit walk is structurally recursive). -/
inductive DKids : Type where
  | dnil : DKids
  | dcons (f : DFiber) (rest : DKids) : DKids

end

/-- Build a sibling chain from a list of fibers. -/
def DKids.ofList : List DFiber → DKids
  | [] => .dnil
  | f :: rest => .dcons f (DKids.ofList rest)

/-- The `dom` field. -/
def DFiber.dom : DFiber → Option Nat
  | .mk d _ _ _ _ => d

/-- The `effectTag` field. -/
def DFiber.effectTag : DFiber → Option EffTag
  | .mk _ t _ _ _ => t

/-- The `props` field. -/
def DFiber.props : DFiber → List (String × BVal)
  | .mk _ _ p _ _ => p

/-- The `alternate.props` field (absent when `alternate` is `null`). -/
def DFiber.altProps : DFiber → Option (List (String × BVal))
  | .mk _ _ _ a _ => a

/-- The children (`child` chain) of the fiber. -/
def DFiber.children : DFiber → DKids
  | .mk _ _ _ _ cs => cs

/-- The per-fiber branch of `commitWork` (lines 64–80): reading
`fiber.parent.dom` as `parentDom`, a `PLACEMENT` fiber with a host node is
appended to the parent's host node, a `DELETION` fiber is removed from it
only when `fiber.dom` is non-null (otherwise nothing happens — there is no
descent in search of a host-bearing descendant), and an `UPDATE` fiber with a
host node is patched via `updateDom` against `fiber.alternate.props`.
Dereferencing a `null` parent host node or a `null` `alternate` throws
(`none`). -/
def commitEffect (parentDom : Option Nat) (f : DFiber) : Option (List DomMut) :=
  match f.effectTag with
  | some .PLACEMENT =>
    match f.dom with
    | some d =>
      match parentDom with
      | some p => some [DomMut.appendChild p d]
      | none => none
    | none => some []
  | some .DELETION =>
    match f.dom with
    | some d =>
      match parentDom with
      | some p => some [DomMut.removeChild p d]
      | none => none
    | none => some []
  | some .UPDATE =>
    match f.dom with
    | some d =>
      match f.altProps with
      | some ap => some (updateDom d ap f.props)
      | none => none
    | none => some []
  | none => some []

mutual

/-- `commitWork(fiber)` (lines 58–86) restricted to the fiber itself and its
child chain: apply the fiber's own effect (against `parentDom`, the parent's
host node), then recurse into the children (whose parent host node is
`fiber.dom`). -/
def commitOne (parentDom : Option Nat) : DFiber → Option (List DomMut)
  | .mk d t p a kids => do
    let own ← commitEffect parentDom (.mk d t p a kids)
    let sub ← commitKids d kids
    pure (own ++ sub)

/-- `commitWork` over a fiber and its right siblings: the source recursion
`commitWork(fiber.child); commitWork(fiber.sibling)` walks the whole chain
under one parent. -/
def commitKids (parentDom : Option Nat) : DKids → Option (List DomMut)
  | .dnil => some []
  | .dcons f rest => do
    let x ← commitOne parentDom f
    let y ← commitKids parentDom rest
    pure (x ++ y)

end

/-- One entry of the Didact `deletions` array as consumed by
`deletions.forEach(commitWork)`: the deleted old fiber's parent host node and
the old fiber itself followed by its (old-generation) right siblings, which
`commitWork`'s sibling recursion also walks. -/
structure DeletionEntry : Type where
  parentDom : Option Nat
  fibers : DKids

/-- `deletions.forEach(commitWork)` (line 37): the per-entry traces of the
deletion queue, in queue order. -/
def traverseCommit : List DeletionEntry → Option (List (List DomMut))
  | [] => some []
  | e :: rest => do
    let t ← commitKids e.parentDom e.fibers
    let ts ← traverseCommit rest
    pure (t :: ts)

/-- `commitRoot()` (lines 34–49), effect part: first every queued deletion is
committed via `commitWork`, in queue order; then `commitWork(wipRoot.child)`
walks the finished tree (children of the root, whose parent host node is the
root container). -/
def commitRootTrace (deletions : List DeletionEntry) (rootDom : Option Nat)
    (wipChildren : DKids) : Option (List DomMut) := do
  let delTraces ← traverseCommit deletions
  let wipTrace ← commitKids rootDom wipChildren
  pure (delTraces.flatten ++ wipTrace)

/-- A Didact element (`createElement`, lines 1–11): a host-tag string `type`
and a props object. -/
structure DElement : Type where
  type : String
  props : List (String × BVal)

deriving instance DecidableEq for DElement

/-- An old-generation (current-tree) Didact fiber as read by
`reconcileChildren`: its `type`, props, host node and effect tag. -/
structure OldFiber : Type where
  type : String
  props : List (String × BVal)
  dom : Option Nat
  effectTag : Option EffTag

deriving instance DecidableEq for OldFiber

/-- A work-in-progress fiber produced by `reconcileChildren`. -/
structure NewFiber : Type where
  type : String
  props : List (String × BVal)
  dom : Option Nat
  alternate : Option OldFiber
  effectTag : EffTag

deriving instance DecidableEq for NewFiber

/-- Outcome of a `reconcileChildren` call: either the rebuilt
`child`/`sibling` chain plus the fibers pushed onto `deletions`, or a crash
(`TypeError` from `prevSibling.sibling = …` with `prevSibling === null`)
together with the fibers already pushed onto `deletions` before the throw. -/
inductive RecOutcome : Type where
  | ok (chain : List NewFiber) (deletions : List OldFiber) : RecOutcome
  | crash (deletions : List OldFiber) : RecOutcome

deriving instance DecidableEq for RecOutcome

/-- The `while (index < elements.length || oldFiber != null)` loop of
`reconcileChildren` (lines 289–369).  `first` is `index === 0`, `prevNull`
records whether `prevSibling` is `null`, `chain` is the sibling chain built so
far and `dels` the deletions pushed so far.  Each position compares
`element.type == oldFiber.type`: a same-type pair yields an `UPDATE` fiber
reusing the old fiber's `dom` with `alternate = oldFiber`; an element with no
same-type old fiber yields a fresh `PLACEMENT` fiber with `dom = null`,
`alternate = null`; an old fiber with no same-type element is tagged
`DELETION` and pushed (before the linking step, which is where the loop can
throw on a `null` `prevSibling`). -/
def reconcileAux : List DElement → List OldFiber → Bool → Bool →
    List NewFiber → List OldFiber → RecOutcome
  | [], [], _, _, chain, dels => .ok chain dels
  | e :: es, o :: os, first, prevNull, chain, dels =>
    if e.type = o.type then
      let nf : NewFiber := ⟨o.type, e.props, o.dom, some o, .UPDATE⟩
      if first then reconcileAux es os false false [nf] dels
      else if prevNull then .crash dels
      else reconcileAux es os false false (chain ++ [nf]) dels
    else
      let nf : NewFiber := ⟨e.type, e.props, none, none, .PLACEMENT⟩
      let dels' := dels ++ [{ o with effectTag := some .DELETION }]
      if first then reconcileAux es os false false [nf] dels'
      else if prevNull then .crash dels'
      else reconcileAux es os false false (chain ++ [nf]) dels'
  | e :: es, [], first, prevNull, chain, dels =>
    let nf : NewFiber := ⟨e.type, e.props, none, none, .PLACEMENT⟩
    if first then reconcileAux es [] false false [nf] dels
    else if prevNull then .crash dels
    else reconcileAux es [] false false (chain ++ [nf]) dels
  | [], o :: os, first, prevNull, chain, dels =>
    let dels' := dels ++ [{ o with effectTag := some .DELETION }]
    if first then reconcileAux [] os false true [] dels'
    else if prevNull then .crash dels'
    else reconcileAux [] os false true chain dels'
  termination_by els olds _ _ _ _ => els.length + olds.length

/-- `reconcileChildren(wipFiber, elements)` (lines 279–370) on the new child
element array and the old first-child/sibling chain (flattened to a list):
the resulting `wipFiber.child` sibling chain and the fibers pushed onto the
render-pass `deletions` array. -/
def reconcileChildren (elements : List DElement) (oldChildren : List OldFiber) :
    RecOutcome :=
  reconcileAux elements oldChildren true false [] []

/-! ## Didact module state (`render`, `commitRoot`, lines 139–161) -/

/-- A Didact root fiber as built by `render(element, container)`: the
container's host node, the single child element (abstracted to an id), and
the `alternate` link to the previous generation's root. -/
inductive RootFiber : Type where
  | mk (dom : Nat) (childEl : Nat) (alternate : Option RootFiber) : RootFiber

/-- The `alternate` link of a root fiber. -/
def RootFiber.alternate : RootFiber → Option RootFiber
  | .mk _ _ a => a

/-- The Didact module-level mutable state (lines 154–161): `nextUnitOfWork`
(the work cursor, abstracted to an id), `currentRoot`, `wipRoot` and the
`deletions` array (entries abstracted to ids). -/
structure MState : Type where
  nextUnitOfWork : Option Nat
  currentRoot : Option RootFiber
  wipRoot : Option RootFiber
  deletions : Option (List Nat)

/-- `render(element, container)` (lines 139–152): build a fresh root fiber
whose props children are `[element]` and whose `alternate` is `currentRoot`,
reset `deletions` to `[]`, and point `nextUnitOfWork` at the new root
(abstracted as unit id `0`). -/
def renderFn (el container : Nat) (s : MState) : MState :=
  { s with wipRoot := some (.mk container el s.currentRoot),
           deletions := some [],
           nextUnitOfWork := some 0 }

/-- One `nextUnitOfWork = performUnitOfWork(nextUnitOfWork)` step of
`workLoop` (line 174).  `performUnitOfWork` mutates fibers and (via
`reconcileChildren`) the `deletions` array but never assigns `currentRoot` or
`wipRoot`; the new cursor and deletions values are therefore taken as
arbitrary. -/
def workStep (n : Option Nat) (ds : Option (List Nat)) (s : MState) : MState :=
  { s with nextUnitOfWork := n, deletions := ds }

/-- Any number of work-loop steps. -/
def applyWorks (ws : List (Option Nat × Option (List Nat))) (s : MState) :
    MState :=
  ws.foldl (fun s w => workStep w.1 w.2 s) s

/-- The reference effect of `commitRoot()` (lines 34–49) on the module state:
`currentRoot = wipRoot; wipRoot = null` (the DOM effects are modelled
separately by `commitRootTrace`). -/
def commitRootFn (s : MState) : MState :=
  { s with currentRoot := s.wipRoot, wipRoot := none }

/-! ## React-like renderer (`unnamed/part_004`, `fiber.js`, `constants.js`) -/

/-- Fiber tags (`constants.js`): the numeric constants `FunctionComponent = 0`,
`ClassComponent = 1`, `HostRoot = 3`, `HostComponent = 5`, `HostText = 6`,
`Fragment = 7`, plus the `null` tag that `createFiberFromElement` leaves when
the element type is neither a string nor a function. -/
inductive BTag : Type where
  | FunctionComponent : BTag
  | ClassComponent : BTag
  | HostRoot : BTag
  | HostComponent : BTag
  | HostText : BTag
  | Fragment : BTag
  | nullTag : BTag

deriving instance DecidableEq for BTag

/-- A class-component instance: its `state` and `props` own-fields (the
`render` method lives on the class, looked up through the environment). -/
structure BInstance : Type where
  state : BVal
  props : BVal

deriving instance DecidableEq for BInstance

/-- A fiber's `stateNode`: a class-component instance or a host node id. -/
inductive SNode : Type where
  | inst (i : BInstance) : SNode
  | dom (d : Nat) : SNode

deriving instance DecidableEq for SNode

/-- `obj[k]` on an arbitrary value (missing key / non-object reads as
`undefined`). -/
def propGet (v : BVal) (k : String) : BVal := propLookup (asFields v) k

/-- A `part_004` fiber with the fields `beginWork` touches: `tag`, `type`,
`key`, `pendingProps` (a raw string for text fibers, hence `BVal`),
`memoizedProps`, `stateNode`, `updateQueue.pending` (a JS circular list,
encoded as the list of updates in traversal order starting at
`pending.next` — so the last entry is the `pending` sentinel itself; `none`
is a `null` pending queue), and `child`. -/
inductive BFiber : Type where
  | mk (tag : BTag) (ty : Option BTy) (key : BVal) (pendingProps : BVal)
      (memoizedProps : BVal) (stateNode : Option SNode)
      (pendingQueue : Option (List BVal)) (child : Option BFiber) : BFiber

/-- The `tag` field. -/
def BFiber.tag : BFiber → BTag
  | .mk t _ _ _ _ _ _ _ => t

/-- The `type` field. -/
def BFiber.ty : BFiber → Option BTy
  | .mk _ ty _ _ _ _ _ _ => ty

/-- The `pendingProps` field. -/
def BFiber.pendingProps : BFiber → BVal
  | .mk _ _ _ pp _ _ _ _ => pp

/-- The `stateNode` field. -/
def BFiber.stateNode : BFiber → Option SNode
  | .mk _ _ _ _ _ sn _ _ => sn

/-- The `updateQueue.pending` field. -/
def BFiber.pendingQueue : BFiber → Option (List BVal)
  | .mk _ _ _ _ _ _ q _ => q

/-- The `child` field. -/
def BFiber.child : BFiber → Option BFiber
  | .mk _ _ _ _ _ _ _ c => c

/-- `workInProgress.child = c`. -/
def BFiber.setChild : BFiber → Option BFiber → BFiber
  | .mk t ty k pp mp sn q _, c => .mk t ty k pp mp sn q c

/-- `workInProgress.stateNode = sn`. -/
def BFiber.setStateNode : BFiber → Option SNode → BFiber
  | .mk t ty k pp mp _ q c, sn => .mk t ty k pp mp sn q c

/-- The component code referenced by ids in `BTy`: function components
(props ↦ returned element), class constructors (props ↦ initial `state`) and
class `render` methods (state → props ↦ returned element). -/
structure CompEnv : Type where
  fnRender : Nat → BVal → BVal
  clsInit : Nat → BVal → BVal
  clsRender : Nat → BVal → BVal → BVal

/-- JS object spread `{...a, ...b}` on field lists: `a`'s keys in order with
`b`'s values where overridden, then `b`'s new keys in `b`'s order. -/
def spreadFields (a b : List (String × BVal)) : List (String × BVal) :=
  a.map (fun kv => if hasKey b kv.1 then (kv.1, propLookup b kv.1) else kv) ++
    b.filter (fun kv => !hasKey a kv.1)

/-- `newState = {...newState, ...next.payload}` — the shallow merge of one
queued update into the state. -/
def jsSpread (a b : BVal) : BVal := BVal.obj (spreadFields (asFields a) (asFields b))

/-- The `do … while` drain of the pending update queue (`part_004` lines
185–193): starting at `pendingState.next` (the head of the encoded list),
shallow-merge each payload into the state and stop right after merging the
`pendingState` sentinel itself (the last entry of the encoded list). -/
def drainQueue (st : BVal) : List BVal → BVal
  | [] => st
  | [u] => jsSpread st u
  | u :: rest => drainQueue (jsSpread st u) rest

/-- `createFiberFromElement(element)` (`fiber.js`): for an element, pick the
tag from the type (string ⇒ `HostComponent`; function with
`isReactComponent` ⇒ `ClassComponent`; other function ⇒ `FunctionComponent`),
with `pendingProps = element.props` and `key = element.key`.  A non-element
value leaves `tag = null`; its `type` (an arbitrary JS value in the source)
is not representable in `Option BTy` and is dropped as `none`. -/
def createFiberFromElement (v : BVal) : BFiber :=
  match v with
  | .vElem ty props key =>
    let tag := match ty with
      | .host _ => BTag.HostComponent
      | .clsComp _ => BTag.ClassComponent
      | .fnComp _ => BTag.FunctionComponent
    .mk tag (some ty) key (.vObj props) .vNull none none none
  | w => .mk .nullTag none (propGet w "key") (propGet w "props") .vNull none none none

/-- The tail of `beginWork` (`part_004` lines 204–215): a falsy
`nextChildren` clears `child` and returns `null`; otherwise exactly one child
fiber is created from it, attached as `child`, and returned as the next unit
of work. -/
def beginWorkFinish (wip : BFiber) (nextChildren : BVal) :
    Option (BFiber × Option BFiber) :=
  if truthy nextChildren then
    let cf := createFiberFromElement nextChildren
    some (wip.setChild (some cf), some cf)
  else some (wip.setChild none, none)

/-- `beginWork(current, workInProgress)` (`part_004` lines 140–216).  The
switch on `workInProgress.tag` computes `nextChildren`: the root's pending
children; a host component's pending children unless they are a string or
number (then `null`); nothing for text; the function component's return
value; for a class component, on first render a fresh instance bound to the
fiber, on later renders the instance's state folded from the circular pending
queue before `render()`.  An unrecognized tag returns `undefined` without
touching `child`.  JS `TypeError`s (calling a non-function type, reading
`pendingState.next` of a `null` pending queue, reading `.state` of a missing
instance) are `none`; an encoded empty circular queue cannot arise (`pending`
is always a node of its own circle) and is also mapped to `none`. -/
def beginWork (env : CompEnv) (current : Option BFiber) (wip : BFiber) :
    Option (BFiber × Option BFiber) :=
  match wip.tag with
  | .HostRoot => beginWorkFinish wip (propGet wip.pendingProps "children")
  | .HostComponent =>
    let children := propGet wip.pendingProps "children"
    let nextChildren := match children with
      | .vStr _ => BVal.vNull
      | .vNum _ => BVal.vNull
      | c => c
    beginWorkFinish wip nextChildren
  | .HostText => beginWorkFinish wip .vNull
  | .FunctionComponent =>
    match wip.ty with
    | some (.fnComp id) => beginWorkFinish wip (env.fnRender id wip.pendingProps)
    | _ => none
  | .ClassComponent =>
    match current with
    | none =>
      match wip.ty with
      | some (.clsComp id) =>
        let inst : BInstance := ⟨env.clsInit id wip.pendingProps, wip.pendingProps⟩
        let wip' := wip.setStateNode (some (.inst inst))
        beginWorkFinish wip' (env.clsRender id inst.state inst.props)
      | _ => none
    | some cur =>
      match wip.stateNode, wip.ty with
      | some (.inst i), some (.clsComp id) =>
        match cur.pendingQueue with
        | some (u :: us) =>
          let newState := drainQueue i.state (u :: us)
          let wip' := wip.setStateNode (some (.inst ⟨newState, i.props⟩))
          beginWorkFinish wip' (env.clsRender id newState i.props)
        | _ => none
      | _, _ => none
  | _ => some (wip, none)

/-- A host DOM node being populated by `completeWork`/`setInitialProps`:
its plain properties, its `style` sub-properties and its `textContent`. -/
structure DomNode : Type where
  props : List (String × BVal)
  style : List (String × BVal)
  textContent : Option BVal

deriving instance DecidableEq for DomNode

/-- A freshly created host node (`createElement(workInProgress)`). -/
def DomNode.fresh : DomNode := ⟨[], [], none⟩

/-- One iteration of `setInitialProps` (`src/dom.js` lines 63–90): `style`
is copied sub-key by sub-key, a string/number `children` value is written
directly to `textContent` (any other `children` value is skipped), every
other key is assigned as a plain property. -/
def setInitialStep (d : DomNode) (kv : String × BVal) : DomNode :=
  let k := kv.1
  let v := kv.2
  if k = "style" then
    { d with style := (asFields v).foldl (fun st skv => setField st skv.1 skv.2) d.style }
  else if k = "children" then
    match v with
    | .vStr _ => { d with textContent := some v }
    | .vNum _ => { d with textContent := some v }
    | _ => d
  else { d with props := setField d.props k v }

/-- `setInitialProps(dom, nextProps)` (`src/dom.js` lines 63–90). -/
def setInitialProps (d : DomNode) (nextProps : BVal) : DomNode :=
  (asFields nextProps).foldl setInitialStep d

/-! ## `renderRootSync` (`part_004` lines 100–132) -/

mutual

/-- A work-tree node for the render-loop ordering analysis: a label and its
children.  `beginWork`'s only traversal-relevant effect is to attach and
return the first child, so the loop is analysed over the tree it walks; the
`child`/`sibling`/`return` links of the source correspond to first-child,
the `WKids` chain, and the cursor stack below. -/
inductive WTree : Type where
  | node (id : Nat) (kids : WKids) : WTree

/-- Sibling chain of work-tree nodes. -/
inductive WKids : Type where
  | wnil : WKids
  | wcons (t : WTree) (rest : WKids) : WKids

end

deriving instance DecidableEq for WTree

/-- The label of a node. -/
def WTree.idOf : WTree → Nat
  | .node i _ => i

/-- The children of a node. -/
def WTree.kidsOf : WTree → WKids
  | .node _ ks => ks

/-- One render-loop step: a `beginWork` or a `completeWork` visit. -/
inductive REvent : Type where
  | begin (id : Nat) : REvent
  | complete (id : Nat) : REvent

deriving instance DecidableEq for REvent

mutual

/-- Number of nodes of a tree. -/
def wsize : WTree → Nat
  | .node _ ks => 1 + wsizeK ks

/-- Number of nodes of a sibling chain. -/
def wsizeK : WKids → Nat
  | .wnil => 0
  | .wcons t rest => wsize t + wsizeK rest

end

/-- Total node count stored in a cursor stack (each frame holds an ancestor's
label and its remaining right siblings). -/
def stackSize (stack : List (Nat × WKids)) : Nat :=
  (stack.map (fun fr => wsizeK fr.2)).sum

/-- The `do … while` unwind of `renderRootSync` (lines 116–129) run to its
next cursor: after completing the current node, move to its first right
sibling if any (breaking the unwind), otherwise complete ancestors (emitting
their `complete` events) until one has a right sibling, or until the root's
`return` (`null`) ends the outer loop.  Returns the events emitted by the
ancestor completions and the next cursor. -/
def unwindStep : WKids → List (Nat × WKids) →
    List REvent × Option (WTree × WKids × List (Nat × WKids))
  | .wcons s rs, stack => ([], some (s, rs, stack))
  | .wnil, (pid, prights) :: st =>
    let r := unwindStep prights st
    (REvent.complete pid :: r.1, r.2)
  | .wnil, [] => ([], none)

/-- The `while (workInProgress)` loop of `renderRootSync` (lines 103–131) as
an event trace: each iteration begins the cursor node; if `beginWork`
returned a child the cursor descends, otherwise the node is completed and the
unwind of `unwindStep` runs.  `fuel` bounds the number of iterations (each
iteration begins one distinct node, so `wsize t + 1` suffices from the
root). -/
def runLoop : Nat → Option (WTree × WKids × List (Nat × WKids)) → List REvent
  | 0, _ => []
  | _ + 1, none => []
  | fuel + 1, some (.node i kids, rights, stack) =>
    match kids with
    | .wcons c rest =>
      REvent.begin i :: runLoop fuel (some (c, rest, (i, rights) :: stack))
    | .wnil =>
      let r := unwindStep rights stack
      REvent.begin i :: REvent.complete i :: (r.1 ++ runLoop fuel r.2)

/-- `renderRootSync()` started on a work tree: the full begin/complete event
trace of the loop. -/
def renderRootSync (t : WTree) : List REvent :=
  runLoop (wsize t + 1) (some (t, .wnil, []))

mutual

/-- The begin/complete trace claimed by the spec: begin the node, recursively
trace the children left to right, then complete the node. -/
def euler : WTree → List REvent
  | .node i kids => REvent.begin i :: (eulerKids kids ++ [REvent.complete i])

/-- Trace of a sibling chain. -/
def eulerKids : WKids → List REvent
  | .wnil => []
  | .wcons t rest => euler t ++ eulerKids rest

end

mutual

/-- All subtrees of a tree (the tree itself included). -/
def subtreesOf : WTree → List WTree
  | .node i kids => .node i kids :: subtreesKids kids

/-- All subtrees rooted inside a sibling chain. -/
def subtreesKids : WKids → List WTree
  | .wnil => []
  | .wcons t rest => subtreesOf t ++ subtreesKids rest

end

/-- Pending events of the cursor continuation `(rights, stack)`: trace the
right siblings, then complete each ancestor and trace its right siblings
outward. -/
def restOf : WKids → List (Nat × WKids) → List REvent
  | .wcons s rs, stack => euler s ++ restOf rs stack
  | .wnil, (pid, prights) :: st => REvent.complete pid :: restOf prights st
  | .wnil, [] => []
  termination_by rights stack => (stack.length, sizeOf rights)

/-! ## `appendChildren` (`src/dom.js` lines 18–55) -/

mutual

/-- A completed-subtree fiber as walked by `appendChildren`: its tag, its
`stateNode` host-node id (for host/text fibers; `none` models a missing
one) and its children. -/
inductive CFiber : Type where
  | mk (tag : BTag) (stateNode : Option Nat) (kids : CKids) : CFiber

/-- Sibling chain of `CFiber`s. -/
inductive CKids : Type where
  | cnil : CKids
  | ccons (f : CFiber) (rest : CKids) : CKids

end

deriving instance DecidableEq for CFiber

/-- The children of a fiber. -/
def CFiber.kidsOf : CFiber → CKids
  | .mk _ _ ks => ks

mutual

/-- Number of fibers in a subtree. -/
def csize : CFiber → Nat
  | .mk _ _ ks => 1 + csizeK ks

/-- Number of fibers in a sibling chain. -/
def csizeK : CKids → Nat
  | .cnil => 0
  | .ccons f rest => csize f + csizeK rest

end

/-- The inner `while (!childFiber.sibling)` ascent of `appendChildren`
(lines 42–49): move to the first available right sibling, popping stack
frames (ancestors' remaining right siblings) on the way; `none` when the
ascent reaches `workInProgress` (`childFiber.return === workInProgress` with
an empty stack). -/
def cAscend : CKids → List CKids → Option (CFiber × CKids × List CKids)
  | .ccons s rs, stack => some (s, rs, stack)
  | .cnil, top :: rest => cAscend top rest
  | .cnil, [] => none

/-- The `while (childFiber)` loop of `appendChildren` (lines 22–54): a
host/text fiber's `stateNode` is appended (`appendChild(null)` throws, hence
`none` when it is missing) and the walk moves sideways/up via `cAscend`;
any other fiber is entered through its first child — and when it has no
child, `childFiber` becomes `null` and the loop simply stops, whatever
remains on the stack.  `fuel` bounds the iteration count (each iteration
either moves to a new fiber or stops, so the subtree size suffices). -/
def appendLoop : Nat → CFiber → CKids → List CKids → Option (List Nat)
  | 0, _, _, _ => none
  | fuel + 1, .mk tag sn kids, rights, stack =>
    if tag = .HostComponent ∨ tag = .HostText then
      match sn with
      | some d =>
        match cAscend rights stack with
        | none => some [d]
        | some (c, rs, st) => (appendLoop fuel c rs st).map (fun l => d :: l)
      | none => none
    else
      match kids with
      | .cnil => some []
      | .ccons c cs => appendLoop fuel c cs (rights :: stack)

/-- `appendChildren(dom, workInProgress)`: run the walk from
`workInProgress.child`; the returned list is the sequence of host-node ids
appended to `dom`, in order. -/
def appendChildren (wip : CFiber) : Option (List Nat) :=
  match wip.kidsOf with
  | .cnil => some []
  | .ccons c cs => appendLoop (csize wip + 1) c cs []

mutual

/-- The host nodes the spec says `appendChildren` must attach, in order
(definition following the spec's words, for comparison with the source
walk): a host/text fiber contributes its own host node; any other fiber is
searched recursively — its nearest host-bearing descendants contribute. -/
def collectNearest : CFiber → List Nat
  | .mk tag sn kids =>
    if tag = .HostComponent ∨ tag = .HostText then sn.toList
    else collectNearestK kids

/-- `collectNearest` over a sibling chain. -/
def collectNearestK : CKids → List Nat
  | .cnil => []
  | .ccons f rest => collectNearest f ++ collectNearestK rest

end

/-- The nearest host-bearing descendants of `workInProgress`'s children, per
the spec. -/
def nearestHostDoms (wip : CFiber) : List Nat := collectNearestK wip.kidsOf

mutual

/-- Well-formedness making the source walk complete: in the searched region
(cut off below host-bearing fibers) every host/text fiber owns a
`stateNode` and every non-host fiber has at least one child. -/
def cWF : CFiber → Bool
  | .mk tag sn kids =>
    if tag = .HostComponent ∨ tag = .HostText then sn.isSome
    else
      match kids with
      | .cnil => false
      | .ccons c cs => cWFK (.ccons c cs)

/-- `cWF` over a sibling chain. -/
def cWFK : CKids → Bool
  | .cnil => true
  | .ccons f rest => cWF f && cWFK rest

end

mutual

/-- Weaker condition: every host/text fiber in the searched region owns a
`stateNode` (childless non-host fibers allowed). -/
def cHostsOk : CFiber → Bool
  | .mk tag sn kids =>
    if tag = .HostComponent ∨ tag = .HostText then sn.isSome
    else cHostsOkK kids

/-- `cHostsOk` over a sibling chain. -/
def cHostsOkK : CKids → Bool
  | .cnil => true
  | .ccons f rest => cHostsOk f && cHostsOkK rest

end

/-! ## Event delegation (`src/listenToAllEvents.js`) -/

/-- A fiber on the `return`-chain from the event target to the root, with
the fields `accumulateListeners` reads. -/
structure EFiber : Type where
  tag : BTag
  stateNode : Option Nat
  memoizedProps : List (String × BVal)

deriving instance DecidableEq for EFiber

/-- `accumulateListeners(reactEventName, fiber)` (lines 11–36): walk the
`return` chain (given as a list, target first); at each `HostComponent`
fiber with a truthy `stateNode`, collect the truthy prop named
`reactEventName`, in walk order. -/
def accumulateListeners (reactEventName : String) :
    List EFiber → List BVal
  | [] => []
  | f :: rest =>
    (if f.tag = .HostComponent ∧ f.stateNode.isSome then
      (let l := propLookup f.memoizedProps reactEventName
       if truthy l then [l] else [])
    else []) ++ accumulateListeners reactEventName rest

/-- `type[0].toUpperCase() + type.slice(1)` (an empty event type would throw
in the source; it is mapped to the empty string, unreachable for real
events). -/
def capitalizeFirst (s : String) : String :=
  match s.data with
  | [] => ""
  | c :: rest => String.mk (c.toUpper :: rest)

/-- The logical event name of a native event type: `'on' + capitalized`. -/
def reactNameOf (ty : String) : String := "on" ++ capitalizeFirst ty

/-- `new SyntheticEvent(event)` (lines 38–52): `nativeEvent` plus the
event's own enumerable fields, with `preventDefault`/`stopPropagation`
replaced by no-ops. -/
def syntheticOf (ev : List (String × BVal)) : List (String × BVal) :=
  ("nativeEvent", BVal.obj ev) ::
    ev.map (fun kv =>
      if kv.1 = "preventDefault" ∨ kv.1 = "stopPropagation" then (kv.1, BVal.vNoop)
      else kv)

/-- `dispatchEvent(event)` (lines 59–73) for an event of native type `ty`
whose `target.internalFiber` sits at the head of `targetChain`: derive the
logical name, collect the listeners bottom-up, build one synthetic event and
invoke each listener with it.  The result is the invocation trace
(listener, argument), in call order. -/
def dispatchEvent (ty : String) (targetChain : List EFiber)
    (eventFields : List (String × BVal)) : List (BVal × List (String × BVal)) :=
  let reactEventName := reactNameOf ty
  let listeners := accumulateListeners reactEventName targetChain
  let syntheticEvent := syntheticOf eventFields
  listeners.map (fun l => (l, syntheticEvent))

/-- The per-position child chain described by the spec's children-diff
algorithm (the comparison point for `reconcileChildren`): same-type pairs
become `UPDATE` fibers reusing the old `dom` and `alternate`; unmatched
elements become fresh `PLACEMENT` fibers. -/
def specChain : List DElement → List OldFiber → List NewFiber
  | [], _ => []
  | e :: es, [] => ⟨e.type, e.props, none, none, .PLACEMENT⟩ :: specChain es []
  | e :: es, o :: os =>
    (if e.type = o.type then (⟨o.type, e.props, o.dom, some o, .UPDATE⟩ : NewFiber)
     else ⟨e.type, e.props, none, none, .PLACEMENT⟩) :: specChain es os

/-- The per-position deletions described by the spec: every old child with no
same-type element at its position, tagged `DELETION`, in position order. -/
def specDels : List DElement → List OldFiber → List OldFiber
  | _, [] => []
  | [], o :: os => { o with effectTag := some .DELETION } :: specDels [] os
  | e :: es, o :: os =>
    (if e.type = o.type then [] else [{ o with effectTag := some .DELETION }]) ++
      specDels es os

/-! # Theorems -/

theorem BFields.toList_ofList (l : List (String × BVal)) :
    (BFields.ofList l).toList = l := by
  induction l with
  | nil => rfl
  | cons kv rest ih => cases kv; simp [BFields.ofList, BFields.toList, ih]

theorem asFields_obj (l : List (String × BVal)) : asFields (BVal.obj l) = l := by
  simp [BVal.obj, asFields, BFields.toList_ofList]

theorem foldl_fixed {α β : Type} (f : α → β → α) (l : List β)
    (h : ∀ b ∈ l, ∀ a, f a b = a) (a : α) : l.foldl f a = a := by
  induction l generalizing a with
  | nil => rfl
  | cons b rest ih =>
    simp only [List.foldl_cons, h b (by simp)]
    exact ih (fun b hb a => h b (by simp [hb]) a) a

theorem propLookup_of_not_hasKey {l : List (String × BVal)} {k : String}
    (h : hasKey l k = false) : propLookup l k = .vUndefined := by
  unfold propLookup
  unfold hasKey at h
  rw [List.find?_eq_none.2 (List.any_eq_false.mp h)]

theorem propLookup_mem {l : List (String × BVal)} {k : String} {v : BVal}
    (h : (k, v) ∈ l) : (k, propLookup l k) ∈ l := by
  rcases hf : l.find? (fun kv => decide (kv.1 = k)) with _ | kv
  · exfalso
    rw [List.find?_eq_none] at hf
    exact hf _ h (by simp)
  · have hm := List.mem_of_find?_eq_some hf
    have hp := List.find?_some hf
    simp only [decide_eq_true_eq] at hp
    have he : propLookup l k = kv.2 := by unfold propLookup; rw [hf]
    rw [he, ← hp]
    simpa using hm

theorem propLookup_of_nodup {l : List (String × BVal)} {k : String} {v : BVal}
    (hnd : (l.map Prod.fst).Nodup) (h : (k, v) ∈ l) : propLookup l k = v := by
  induction l with
  | nil => cases h
  | cons kv rest ih =>
    simp only [List.map_cons, List.nodup_cons] at hnd
    rcases List.mem_cons.1 h with he | ht
    · subst he; simp [propLookup, List.find?]
    · have hk : kv.1 ≠ k := by
        intro he
        exact hnd.1 (he ▸ (List.mem_map.2 ⟨(k, v), ht, rfl⟩))
      have hd : (decide (kv.1 = k)) = false := by simpa using hk
      simp only [propLookup, List.find?, hd]
      simpa [propLookup] using ih hnd.2 ht

/-! ## C4 — commit promotes the work tree and clears the cursor -/

theorem commitRootFn_currentRoot (s : MState) :
    (commitRootFn s).currentRoot = s.wipRoot := rfl

theorem commitRootFn_wipRoot (s : MState) :
    (commitRootFn s).wipRoot = none := rfl

theorem renderFn_wipRoot (el c : Nat) (s : MState) :
    (renderFn el c s).wipRoot = some (.mk c el s.currentRoot) := rfl

theorem renderFn_currentRoot (el c : Nat) (s : MState) :
    (renderFn el c s).currentRoot = s.currentRoot := rfl

theorem applyWorks_roots (ws : List (Option Nat × Option (List Nat)))
    (s : MState) : (applyWorks ws s).wipRoot = s.wipRoot ∧
      (applyWorks ws s).currentRoot = s.currentRoot := by
  induction ws generalizing s with
  | nil => exact ⟨rfl, rfl⟩
  | cons w rest ih => simpa [applyWorks, workStep] using ih (workStep w.1 w.2 s)

/-- C4: after a completed render pass commits (`commitRoot`), `currentRoot`
is the finished `wipRoot` built by `render`, `wipRoot` is cleared to `null`
and remains `null` across any further work-loop steps until the next
`render`, and after a second completed pass the new current root's
`alternate` is exactly the previous pass's work-in-progress root (the root
that `render` built and the first commit promoted). -/
theorem commitRoot_promotes_and_clears_wip
    (s0 : MState) (c e1 e2 : Nat)
    (ws1 ws2 ws3 : List (Option Nat × Option (List Nat))) :
    (commitRootFn (applyWorks ws1 (renderFn e1 c s0))).currentRoot =
        some (.mk c e1 s0.currentRoot) ∧
      (commitRootFn (applyWorks ws1 (renderFn e1 c s0))).wipRoot = none ∧
      (applyWorks ws3 (commitRootFn (applyWorks ws1 (renderFn e1 c s0)))).wipRoot
        = none ∧
      (commitRootFn (applyWorks ws2 (renderFn e2 c
          (commitRootFn (applyWorks ws1 (renderFn e1 c s0)))))).currentRoot =
        some (.mk c e2 (some (.mk c e1 s0.currentRoot))) ∧
      ∃ r1 r2, (renderFn e1 c s0).wipRoot = some r1 ∧
        (commitRootFn (applyWorks ws2 (renderFn e2 c
          (commitRootFn (applyWorks ws1 (renderFn e1 c s0)))))).currentRoot =
          some r2 ∧ r2.alternate = some r1 := by
  have hs1c : (commitRootFn (applyWorks ws1 (renderFn e1 c s0))).currentRoot =
      some (.mk c e1 s0.currentRoot) := by
    rw [commitRootFn_currentRoot, (applyWorks_roots ws1 _).1, renderFn_wipRoot]
  have hs2c : (commitRootFn (applyWorks ws2 (renderFn e2 c
      (commitRootFn (applyWorks ws1 (renderFn e1 c s0)))))).currentRoot =
      some (.mk c e2 (some (.mk c e1 s0.currentRoot))) := by
    rw [commitRootFn_currentRoot, (applyWorks_roots ws2 _).1, renderFn_wipRoot,
      hs1c]
  refine ⟨hs1c, rfl, ?_, hs2c, ?_⟩
  · rw [(applyWorks_roots ws3 _).1, commitRootFn_wipRoot]
  · exact ⟨.mk c e1 s0.currentRoot, .mk c e2 (some (.mk c e1 s0.currentRoot)),
      rfl, hs2c, rfl⟩

/-! ## C5 / C6 — property diff -/

theorem diffOldStep_id (p : List (String × BVal))
    (acc : List (String × BVal) × List (String × BVal)) (kv : String × BVal)
    (h : truthy (propLookup p kv.1) = true) : diffOldStep p acc kv = acc := by
  simp [diffOldStep, h]

theorem diffNewStep_id (p : List (String × BVal))
    (acc : List (String × BVal) × List (String × BVal)) (kv : String × BVal)
    (h : kv.2 = propLookup p kv.1) : diffNewStep p acc kv = acc := by
  simp [diffNewStep, h]

theorem truthy_propLookup_self {p : List (String × BVal)}
    (hall : ∀ kv ∈ p, truthy kv.2 = true) {k : String} {v : BVal}
    (h : (k, v) ∈ p) : truthy (propLookup p k) = true :=
  hall _ (propLookup_mem h)

theorem updateDom_self (d : Nat) (p : List (String × BVal)) :
    updateDom d p p = [] := by
  unfold updateDom
  have h1 : ∀ q : String → Bool,
      (((p.map Prod.fst).filter q).filter (fun k => !hasKey p k)) = [] := by
    intro q
    rw [List.filter_eq_nil_iff]
    intro k hk
    have hk' : k ∈ p.map Prod.fst := (List.mem_filter.1 hk).1
    rcases List.mem_map.1 hk' with ⟨kv, hkv, rfl⟩
    have : hasKey p kv.1 = true := by
      unfold hasKey
      rw [List.any_eq_true]
      exact ⟨kv, hkv, by simp⟩
    simp [this]
  have h2 : ∀ q : String → Bool,
      (((p.map Prod.fst).filter q).filter
        (fun k => propLookup p k ≠ propLookup p k)) = [] := by
    intro q
    rw [List.filter_eq_nil_iff]
    intro k _
    simp
  have h3 : (((p.map Prod.fst).filter isEvent).filter
      (fun k => !hasKey p k ∨ propLookup p k ≠ propLookup p k)) = [] := by
    rw [List.filter_eq_nil_iff]
    intro k hk
    have hk' : k ∈ p.map Prod.fst := (List.mem_filter.1 hk).1
    rcases List.mem_map.1 hk' with ⟨kv, hkv, rfl⟩
    have : hasKey p kv.1 = true := by
      unfold hasKey
      rw [List.any_eq_true]
      exact ⟨kv, hkv, by simp⟩
    simp [this]
  rw [h1 isProperty, h2 isProperty, h3, h2 isEvent]
  simp

/-- C6 (amended): re-rendering identical props is a no-op on the diff side —
`diffProperties(p, p)` returns the `null` payload whenever every value of `p`
is truthy (the source's `if (newProps[k])` removal test misreads present
falsy values, see the counterexample), and the Didact `updateDom` applied to
identical old and new props issues zero host mutations, unconditionally. -/
theorem diffProperties_idem_truthy_and_updateDom_noop :
    (∀ p : List (String × BVal), (p.map Prod.fst).Nodup →
      (∀ kv ∈ p, truthy kv.2 = true) → diffProperties p p = none) ∧
    (∀ (d : Nat) (p : List (String × BVal)), updateDom d p p = []) := by
  constructor
  · intro p hnd hall
    have hacc0 : p.foldl (diffOldStep p) ([], []) = ([], []) := by
      refine foldl_fixed _ _ ?_ _
      intro kv hkv acc
      exact diffOldStep_id p acc kv
        (truthy_propLookup_self hall (by simpa using hkv))
    have hacc1 : p.foldl (diffNewStep p) ([], []) = ([], []) := by
      refine foldl_fixed _ _ ?_ _
      intro kv hkv acc
      refine diffNewStep_id p acc kv ?_
      rw [propLookup_of_nodup hnd (by simpa using hkv)]
    simp [diffProperties, hacc0, hacc1]
  · exact updateDom_self

/-- C6, counterexample: the claim's unconditional idempotence fails — for the
identical old and new props `{count: 0}` the source schedules `count` for
clearing (its falsy value fails the `if (newProps[k])` presence test), so the
payload is `['count', null]`, not `null`; the claimed empty delta would be
`none`. -/
theorem diffProperties_not_idempotent_on_falsy :
    diffProperties [("count", .vNum 0)] [("count", .vNum 0)] =
      some [("count", .vNull)] ∧
    diffProperties [("count", .vNum 0)] [("count", .vNum 0)] ≠ none := by
  constructor
  · decide
  · decide

/-- C6, witness. -/
theorem diffProperties_idem_truthy_and_updateDom_noop_witness :
    diffProperties [("color", .vStr "red"), ("size", .vNum 2)]
      [("color", .vStr "red"), ("size", .vNum 2)] = none ∧
    updateDom 0 [("color", .vStr "red")] [("color", .vStr "red")] = [] := by
  exact ⟨diffProperties_idem_truthy_and_updateDom_noop.1
      [("color", .vStr "red"), ("size", .vNum 2)] (by decide) (by decide),
    diffProperties_idem_truthy_and_updateDom_noop.2 0 [("color", .vStr "red")]⟩

theorem diffOldStep_fst_mono (new : List (String × BVal))
    (acc : List (String × BVal) × List (String × BVal)) (kv : String × BVal) :
    ∃ t, (diffOldStep new acc kv).1 = acc.1 ++ t := by
  simp only [diffOldStep]
  split_ifs with h1 h2 h3
  · exact ⟨[], by simp⟩
  · exact ⟨[], by simp⟩
  · exact ⟨[], by simp⟩
  · exact ⟨[(kv.1, .vNull)], by simp⟩

theorem diffNewStep_fst_mono (old : List (String × BVal))
    (acc : List (String × BVal) × List (String × BVal)) (kv : String × BVal) :
    ∃ t, (diffNewStep old acc kv).1 = acc.1 ++ t := by
  obtain ⟨k, v⟩ := kv
  simp only [diffNewStep]
  split_ifs with h1 h2 h3 h4 h5
  · exact ⟨[], by simp⟩
  · exact ⟨[], by simp⟩
  · exact ⟨[], by simp⟩
  · cases v with
    | vStr s => exact ⟨[(k, .vStr s)], by simp⟩
    | vNum n => exact ⟨[(k, .vNum n)], by simp⟩
    | vUndefined => exact ⟨[], by simp⟩
    | vNull => exact ⟨[], by simp⟩
    | vBool b => exact ⟨[], by simp⟩
    | vObj fs => exact ⟨[], by simp⟩
    | vFun i => exact ⟨[], by simp⟩
    | vNoop => exact ⟨[], by simp⟩
    | vElem ty ps key => exact ⟨[], by simp⟩
  · exact ⟨[], by simp⟩
  · exact ⟨[(k, v)], by simp⟩

theorem foldl_fst_append {β γ : Type}
    (f : (List β × γ) → (String × BVal) → (List β × γ))
    (hf : ∀ acc kv, ∃ t, (f acc kv).1 = acc.1 ++ t) :
    ∀ (l : List (String × BVal)) (acc : List β × γ),
      ∃ t, (l.foldl f acc).1 = acc.1 ++ t := by
  intro l
  induction l with
  | nil => exact fun acc => ⟨[], by simp⟩
  | cons kv rest ih =>
    intro acc
    obtain ⟨t1, h1⟩ := hf acc kv
    obtain ⟨t2, h2⟩ := ih (f acc kv)
    exact ⟨t1 ++ t2, by simp [List.foldl_cons, h2, h1]⟩

theorem mem_fst_foldl_diffOld (new : List (String × BVal)) :
    ∀ (old : List (String × BVal))
      (acc : List (String × BVal) × List (String × BVal)) (k : String)
      (v : BVal), (k, v) ∈ old → hasKey new k = false → k ≠ "style" →
      k ≠ "children" → strStarts k "on" = false →
      (k, BVal.vNull) ∈ (old.foldl (diffOldStep new) acc).1 := by
  intro old
  induction old with
  | nil => intro _ _ _ h; cases h
  | cons kv rest ih =>
    intro acc k v h habs hst hch hon
    rcases List.mem_cons.1 h with he | ht
    · have hstep : diffOldStep new acc kv = (acc.1 ++ [(k, .vNull)], acc.2) := by
        have htr : truthy (propLookup new k) = false := by
          rw [propLookup_of_not_hasKey habs]; rfl
        rw [← he]
        simp [diffOldStep, htr, hst, hch, hon]
      rw [List.foldl_cons, hstep]
      obtain ⟨t, hT⟩ :=
        foldl_fst_append _ (diffOldStep_fst_mono new) rest (acc.1 ++ [(k, .vNull)], acc.2)
      rw [hT]
      simp
    · rw [List.foldl_cons]
      exact ih _ k v ht habs hst hch hon

/-- C5: `diffProperties` schedules every key present in the old props but
absent from the new props — other than `style`, `children` and `on…` keys —
for clearing (`(k, null)` in the payload); in particular old
`{color:'red', size:2}` against new `{size:2}` yields exactly the payload
`['color', null]`, clearing `color` and carrying no entry for `size`. -/
theorem diffProperties_clears_removed_keys :
    (∀ (oldProps newProps : List (String × BVal)) (k : String) (v : BVal),
      (k, v) ∈ oldProps → hasKey newProps k = false →
      k ≠ "style" → k ≠ "children" → strStarts k "on" = false →
      ∃ l, diffProperties oldProps newProps = some l ∧ (k, BVal.vNull) ∈ l) ∧
    diffProperties [("color", .vStr "red"), ("size", .vNum 2)]
      [("size", .vNum 2)] = some [("color", .vNull)] := by
  constructor
  · intro old new k v hm habs hst hch hon
    have h0 := mem_fst_foldl_diffOld new old ([], []) k v hm habs hst hch hon
    obtain ⟨t, hT⟩ := foldl_fst_append _ (diffNewStep_fst_mono old) new
      (old.foldl (diffOldStep new) ([], []))
    have hmem1 : (k, BVal.vNull) ∈
        (new.foldl (diffNewStep old) (old.foldl (diffOldStep new) ([], []))).1 := by
      rw [hT]
      exact List.mem_append_left _ h0
    by_cases hsty :
        (new.foldl (diffNewStep old) (old.foldl (diffOldStep new) ([], []))).2 = []
    · refine ⟨(new.foldl (diffNewStep old) (old.foldl (diffOldStep new) ([], []))).1,
        ?_, hmem1⟩
      simp [diffProperties, hsty, List.ne_nil_of_mem hmem1]
    · refine ⟨(new.foldl (diffNewStep old) (old.foldl (diffOldStep new) ([], []))).1
          ++ [("style", BVal.obj
            (new.foldl (diffNewStep old) (old.foldl (diffOldStep new) ([], []))).2)],
        ?_, List.mem_append_left _ hmem1⟩
      simp [diffProperties, hsty]
  · decide

/-- C5, witness. -/
theorem diffProperties_clears_removed_keys_witness :
    ∃ l, diffProperties [("color", .vStr "red"), ("size", .vNum 2)]
        [("size", .vNum 2)] = some l ∧ ("color", BVal.vNull) ∈ l :=
  diffProperties_clears_removed_keys.1
    [("color", .vStr "red"), ("size", .vNum 2)] [("size", .vNum 2)]
    "color" (.vStr "red") (by decide) (by decide) (by decide) (by decide)
    (by decide)

/-! ## C9 — event delegation bubble order -/

theorem accumulateListeners_append (n : String) (xs ys : List EFiber) :
    accumulateListeners n (xs ++ ys) =
      accumulateListeners n xs ++ accumulateListeners n ys := by
  induction xs with
  | nil => rfl
  | cons f rest ih => simp [accumulateListeners, ih]

theorem accumulateListeners_nil_of (n : String) (xs : List EFiber)
    (h : ∀ f ∈ xs, f.tag = .HostComponent → f.stateNode.isSome = true →
      truthy (propLookup f.memoizedProps n) = false) :
    accumulateListeners n xs = [] := by
  induction xs with
  | nil => rfl
  | cons f rest ih =>
    have hrest := ih (fun f hf => h f (List.mem_cons_of_mem _ hf))
    by_cases hc : f.tag = .HostComponent ∧ f.stateNode.isSome
    · have := h f (List.mem_cons_self _ _) hc.1 hc.2
      simp [accumulateListeners, hc, this, hrest]
    · simp [accumulateListeners, hc, hrest]

/-- C9: dispatching a native `click` whose target host node belongs to a
fiber `B` nested (via `return` links) under a fiber `A`, with handlers `h2`
on `B` and `h1` on `A` and no other matching handler on the chain, invokes
exactly `[h2, h1]` — target-to-root (bubble) order — each call receiving the
one synthetic event object wrapping the native event. -/
theorem dispatchEvent_bubble_order
    (h1 h2 dA dB : Nat) (propsA propsB : List (String × BVal))
    (mid above : List EFiber) (ev : List (String × BVal))
    (hB : propLookup propsB "onClick" = .vFun h2)
    (hA : propLookup propsA "onClick" = .vFun h1)
    (hmid : ∀ f ∈ mid, f.tag = .HostComponent → f.stateNode.isSome = true →
      truthy (propLookup f.memoizedProps "onClick") = false)
    (habove : ∀ f ∈ above, f.tag = .HostComponent → f.stateNode.isSome = true →
      truthy (propLookup f.memoizedProps "onClick") = false) :
    dispatchEvent "click"
      (⟨.HostComponent, some dB, propsB⟩ ::
        (mid ++ ⟨.HostComponent, some dA, propsA⟩ :: above)) ev =
      [(.vFun h2, syntheticOf ev), (.vFun h1, syntheticOf ev)] := by
  have hname : reactNameOf "click" = "onClick" := by decide
  have hacc : accumulateListeners "onClick"
      (⟨.HostComponent, some dB, propsB⟩ ::
        (mid ++ ⟨.HostComponent, some dA, propsA⟩ :: above)) =
      [.vFun h2, .vFun h1] := by
    have hm := accumulateListeners_nil_of "onClick" mid hmid
    have ha := accumulateListeners_nil_of "onClick" above habove
    simp [accumulateListeners, accumulateListeners_append, hB, hA, hm, ha,
      truthy]
  simp [dispatchEvent, hname, hacc]

/-- C9, witness: two directly nested host fibers with handlers `7` (inner)
and `5` (outer). -/
theorem dispatchEvent_bubble_order_witness :
    dispatchEvent "click"
      (⟨.HostComponent, some 2, [("onClick", .vFun 7)]⟩ ::
        ([] ++ ⟨.HostComponent, some 1, [("onClick", .vFun 5)]⟩ ::
          [⟨.HostRoot, none, []⟩])) [("x", .vNum 3)] =
      [(.vFun 7, syntheticOf [("x", .vNum 3)]),
        (.vFun 5, syntheticOf [("x", .vNum 3)])] := by
  exact dispatchEvent_bubble_order 5 7 1 2 [("onClick", .vFun 5)]
    [("onClick", .vFun 7)] [] [⟨.HostRoot, none, []⟩] [("x", .vNum 3)]
    (by decide) (by decide) (by intro f hf; cases hf)
    (by intro f hf htag; rcases List.mem_singleton.1 hf with rfl; cases htag)

/-! ## C7 — primitive children become host text, not fibers -/

theorem mem_of_propLookup {l : List (String × BVal)} {k : String} {v : BVal}
    (h : propLookup l k = v) (hne : v ≠ .vUndefined) : (k, v) ∈ l := by
  unfold propLookup at h
  rcases hf : l.find? (fun kv => decide (kv.1 = k)) with _ | kv
  · rw [hf] at h
    exact absurd h.symm hne
  · rw [hf] at h
    have hm := List.mem_of_find?_eq_some hf
    have hp := List.find?_some hf
    simp only [decide_eq_true_eq] at hp
    rw [← h, ← hp]
    simpa using hm

theorem setInitialStep_textContent (d : DomNode) (kv : String × BVal)
    (h : kv.1 ≠ "children") :
    (setInitialStep d kv).textContent = d.textContent := by
  obtain ⟨k, v⟩ := kv
  simp only at h
  by_cases h1 : k = "style"
  · simp [setInitialStep, h1]
  · simp [setInitialStep, h1, h]

theorem setInitialProps_textContent_of_no_children (l : List (String × BVal))
    (d : DomNode) (h : ∀ kv ∈ l, kv.1 ≠ "children") :
    (l.foldl setInitialStep d).textContent = d.textContent := by
  induction l generalizing d with
  | nil => rfl
  | cons kv rest ih =>
    rw [List.foldl_cons, ih _ (fun kv hkv => h kv (List.mem_cons_of_mem _ hkv)),
      setInitialStep_textContent d kv (h kv (List.mem_cons_self _ _))]

theorem setInitialProps_textContent_primitive (ps : List (String × BVal))
    (d : DomNode) (v : BVal) (hnd : (ps.map Prod.fst).Nodup)
    (hm : ("children", v) ∈ ps)
    (hprim : (∃ s, v = .vStr s) ∨ (∃ n, v = .vNum n)) :
    (ps.foldl setInitialStep d).textContent = some v := by
  induction ps generalizing d with
  | nil => cases hm
  | cons kv rest ih =>
    simp only [List.map_cons, List.nodup_cons] at hnd
    rcases List.mem_cons.1 hm with he | ht
    · have hrest : ∀ kv' ∈ rest, kv'.1 ≠ "children" := by
        intro kv' hkv' he'
        exact hnd.1 (by
          rw [← he]
          exact he' ▸ List.mem_map.2 ⟨kv', hkv', rfl⟩)
      rw [List.foldl_cons, setInitialProps_textContent_of_no_children _ _ hrest]
      rcases hprim with ⟨s, rfl⟩ | ⟨n, rfl⟩ <;>
        simp [← he, setInitialStep]
    · have hk : kv.1 ≠ "children" := by
        intro he'
        exact hnd.1 (he' ▸ List.mem_map.2 ⟨("children", v), ht, rfl⟩)
      rw [List.foldl_cons, ih _ hnd.2 ht]

/-- C7: a primitive-host (`HostComponent`) fiber whose `pendingProps.children`
is a string or number expands to no child fiber at all (`beginWork` clears
`child` and returns `null`), and `setInitialProps` writes that primitive
value directly as the host node's `textContent`. -/
theorem beginWork_primitive_children_no_fiber
    (env : CompEnv) (cur : Option BFiber) (tyh : Option BTy) (key mp : BVal)
    (sn : Option SNode) (q : Option (List BVal)) (c0 : Option BFiber)
    (ps : List (String × BVal)) (v : BVal)
    (hv : propLookup ps "children" = v)
    (hprim : (∃ s, v = .vStr s) ∨ (∃ n, v = .vNum n))
    (hnd : (ps.map Prod.fst).Nodup) :
    beginWork env cur (.mk .HostComponent tyh key (BVal.obj ps) mp sn q c0) =
      some (.mk .HostComponent tyh key (BVal.obj ps) mp sn q none, none) ∧
    (setInitialProps DomNode.fresh (BVal.obj ps)).textContent = some v := by
  constructor
  · have hpg : propGet (BVal.obj ps) "children" = v := by
      rw [propGet, asFields_obj, hv]
    rcases hprim with ⟨s, rfl⟩ | ⟨n, rfl⟩ <;>
      simp [beginWork, BFiber.tag, BFiber.pendingProps, hpg, beginWorkFinish,
        truthy, BFiber.setChild]
  · have hm : ("children", v) ∈ ps := by
      refine mem_of_propLookup hv ?_
      rcases hprim with ⟨s, rfl⟩ | ⟨n, rfl⟩ <;> simp
    rw [setInitialProps, asFields_obj]
    exact setInitialProps_textContent_primitive ps DomNode.fresh v hnd hm hprim

/-- C7, witness: a host fiber whose only child description is the string
`"hello"` produces zero child fibers and text content `"hello"`. -/
theorem beginWork_primitive_children_no_fiber_witness :
    (∀ env : CompEnv,
      beginWork env none (.mk .HostComponent (some (.host "h1")) .vNull
          (BVal.obj [("children", .vStr "hello")]) .vNull none none none) =
        some (.mk .HostComponent (some (.host "h1")) .vNull
          (BVal.obj [("children", .vStr "hello")]) .vNull none none none, none)) ∧
    (setInitialProps DomNode.fresh
      (BVal.obj [("children", .vStr "hello")])).textContent =
        some (.vStr "hello") := by
  constructor
  · intro env
    exact (beginWork_primitive_children_no_fiber env none (some (.host "h1"))
      .vNull .vNull none none none [("children", .vStr "hello")]
      (.vStr "hello") (by decide) (Or.inl ⟨"hello", rfl⟩) (by decide)).1
  · exact (beginWork_primitive_children_no_fiber
      ⟨fun _ _ => .vNull, fun _ _ => .vNull, fun _ _ _ => .vNull⟩ none
      (some (.host "h1")) .vNull .vNull none none none
      [("children", .vStr "hello")] (.vStr "hello") (by decide)
      (Or.inl ⟨"hello", rfl⟩) (by decide)).2

/-! ## C8 — class-component update-queue fold -/

theorem drainQueue_eq_foldl : ∀ (us : List BVal) (st : BVal),
    drainQueue st us = us.foldl jsSpread st := by
  intro us
  induction us with
  | nil => intro st; rfl
  | cons u rest ih =>
    intro st
    cases rest with
    | nil => rfl
    | cons u2 r2 =>
      rw [show drainQueue st (u :: u2 :: r2) =
          drainQueue (jsSpread st u) (u2 :: r2) from rfl,
        ih (jsSpread st u)]
      simp [List.foldl_cons]

/-- C8: on a non-first render of a class-component fiber whose current twin
carries a non-empty circular pending update queue (encoded as the non-empty
list of updates in traversal order, the last entry being the `pending`
sentinel at which the `do … while` stops), `beginWork` replaces the
instance's state by the left fold of the shallow merge over all queued
payloads in queue order (oldest first) and only then calls the class's
`render` on that new state to produce the child description. -/
theorem beginWork_class_queue_fold
    (env : CompEnv) (id : Nat) (key pp mp : BVal)
    (q : Option (List BVal)) (c0 : Option BFiber) (i : BInstance)
    (cur : BFiber) (us : List BVal)
    (hq : cur.pendingQueue = some us) (hne : us ≠ []) :
    beginWork env (some cur)
        (.mk .ClassComponent (some (.clsComp id)) key pp mp
          (some (.inst i)) q c0) =
      beginWorkFinish
        ((BFiber.mk .ClassComponent (some (.clsComp id)) key pp mp
            (some (.inst i)) q c0).setStateNode
          (some (.inst ⟨us.foldl jsSpread i.state, i.props⟩)))
        (env.clsRender id (us.foldl jsSpread i.state) i.props) := by
  obtain ⟨u, us'⟩ := List.exists_cons_of_ne_nil hne
  obtain ⟨us'', rfl⟩ := us'
  simp [beginWork, BFiber.tag, BFiber.ty, BFiber.stateNode, hq,
    drainQueue_eq_foldl]

/-- C8, witness: two queued updates applied oldest-first — the later update's
value for a shared key wins, and the fresh key of the first update
survives. -/
theorem beginWork_class_queue_fold_witness :
    beginWork
        ⟨fun _ _ => .vNull, fun _ _ => .vNull,
          fun _ st _ => .vElem (.host "div") (.fcons "state" st .fnil) .vNull⟩
        (some (.mk .ClassComponent (some (.clsComp 0)) .vNull .vNull .vNull none
          (some [BVal.obj [("a", .vNum 1), ("b", .vNum 2)],
            BVal.obj [("a", .vNum 9)]]) none))
        (.mk .ClassComponent (some (.clsComp 0)) .vNull .vNull .vNull
          (some (.inst ⟨BVal.obj [("a", .vNum 0)], .vNull⟩)) none none) =
      beginWorkFinish
        ((BFiber.mk .ClassComponent (some (.clsComp 0)) .vNull .vNull .vNull
            (some (.inst ⟨BVal.obj [("a", .vNum 0)], .vNull⟩)) none none).setStateNode
          (some (.inst ⟨BVal.obj [("a", .vNum 9), ("b", .vNum 2)], .vNull⟩)))
        (.vElem (.host "div")
          (.fcons "state" (BVal.obj [("a", .vNum 9), ("b", .vNum 2)]) .fnil)
          .vNull) := by
  have h := beginWork_class_queue_fold
    ⟨fun _ _ => .vNull, fun _ _ => .vNull,
      fun _ st _ => .vElem (.host "div") (.fcons "state" st .fnil) .vNull⟩
    0 .vNull .vNull .vNull none none
    ⟨BVal.obj [("a", .vNum 0)], .vNull⟩
    (.mk .ClassComponent (some (.clsComp 0)) .vNull .vNull .vNull none
      (some [BVal.obj [("a", .vNum 1), ("b", .vNum 2)],
        BVal.obj [("a", .vNum 9)]]) none)
    [BVal.obj [("a", .vNum 1), ("b", .vNum 2)], BVal.obj [("a", .vNum 9)]]
    rfl (by simp)
  rw [h]
  rfl

/-! ## C1 — children reconciliation -/

/-- C1: the reconciliation loop crashes on trailing deletions.  With new
children `[]` against the old chain `[a, b, c]`, position 0 tags and pushes
`a` and sets `prevSibling = null`; position 1 tags and pushes `b` and then
throws a `TypeError` at `prevSibling.sibling = newFiber` — so the render pass
dies and the old child `c`, which the claim (and the code's own intent) says
must also be tagged `DELETION` and pushed, is never processed. -/
theorem reconcileChildren_crash_on_trailing_deletions :
    reconcileChildren []
        [⟨"a", [], some 1, some .PLACEMENT⟩, ⟨"b", [], some 2, some .UPDATE⟩,
          ⟨"c", [], some 3, some .UPDATE⟩] =
      .crash [⟨"a", [], some 1, some .DELETION⟩,
        ⟨"b", [], some 2, some .DELETION⟩] := by
  simp [reconcileChildren, reconcileAux]

theorem reconcileAux_first_eq (els : List DElement) (olds : List OldFiber)
    (dels : List OldFiber) :
    reconcileAux els olds true false [] dels =
      reconcileAux els olds false false [] dels := by
  cases els <;> cases olds <;> simp [reconcileAux]

/-- `reconcileChildren` realizes the spec's per-position children diff on
every input where it does not crash, i.e. whenever the old chain is at most
one longer than the new element array. -/
theorem reconcileAux_ok : ∀ (els : List DElement) (olds : List OldFiber)
    (chain : List NewFiber) (dels : List OldFiber),
    olds.length ≤ els.length + 1 →
    reconcileAux els olds false false chain dels =
      .ok (chain ++ specChain els olds) (dels ++ specDels els olds) := by
  intro els
  induction els with
  | nil =>
    intro olds chain dels hlen
    match olds with
    | [] => simp [reconcileAux, specChain, specDels]
    | [o] =>
      simp [reconcileAux, specChain, specDels]
    | o1 :: o2 :: os => simp at hlen
  | cons e es ih =>
    intro olds chain dels hlen
    match olds with
    | [] =>
      rw [show reconcileAux (e :: es) [] false false chain dels =
          reconcileAux es [] false false
            (chain ++ [⟨e.type, e.props, none, none, .PLACEMENT⟩]) dels from by
        simp [reconcileAux]]
      rw [ih [] _ _ (by simp)]
      simp [specChain, specDels]
    | o :: os =>
      by_cases hty : e.type = o.type
      · rw [show reconcileAux (e :: es) (o :: os) false false chain dels =
            reconcileAux es os false false
              (chain ++ [⟨o.type, e.props, o.dom, some o, .UPDATE⟩]) dels from by
          simp [reconcileAux, hty]]
        rw [ih os _ _ (by simpa using hlen)]
        simp [specChain, specDels, hty]
      · rw [show reconcileAux (e :: es) (o :: os) false false chain dels =
            reconcileAux es os false false
              (chain ++ [⟨e.type, e.props, none, none, .PLACEMENT⟩])
              (dels ++ [{ o with effectTag := some .DELETION }]) from by
          simp [reconcileAux, hty]]
        rw [ih os _ _ (by simpa using hlen)]
        simp [specChain, specDels, hty]

/-- On non-crashing inputs `reconcileChildren` produces exactly the
spec-described chain and deletions. -/
theorem reconcileChildren_ok (els : List DElement) (olds : List OldFiber)
    (hlen : olds.length ≤ els.length + 1) :
    reconcileChildren els olds = .ok (specChain els olds) (specDels els olds) := by
  rw [reconcileChildren, reconcileAux_first_eq, reconcileAux_ok els olds [] [] hlen]
  simp

/-! ## C3 — commit order and deletion detach -/

/-- C3, counterexample: a queued `DELETION` fiber with `dom = null` whose
child is a host-bearing fiber (host node `7`, no pending mutation of its
own).  `commitWork` produces no mutation at all — in particular it never
detaches the nearest host-bearing descendant's node `7` from the parent's
node `0` as the claim requires; the deletion is silently skipped. -/
theorem commitWork_skips_domless_deletion :
    commitKids (some 0)
        (.dcons (.mk none (some .DELETION) [] none
          (.dcons (.mk (some 7) (some .UPDATE) [("x", .vNum 1)]
            (some [("x", .vNum 1)]) .dnil) .dnil)) .dnil) =
      some ([] : List DomMut) ∧
    DomMut.removeChild 0 7 ∉ ([] : List DomMut) := by
  constructor
  · decide
  · decide

/-- C3 (amended): `commitRoot` runs the whole deletion queue (in order)
strictly before the placement/update walk over the finished tree — the trace
is the concatenation of the deletion traces followed by the finished-tree
trace; detaching a deleted fiber removes its own `dom` from its parent's
`dom` when the deleted fiber has one, and when the deleted fiber's `dom` is
`null` the deletion performs no removal at all (no descent to a host-bearing
descendant). -/
theorem commitRoot_deletions_first_and_detach :
    (∀ (dels : List DeletionEntry) (rootDom : Option Nat) (wip : DKids)
      (ts : List (List DomMut)) (t2 : List DomMut),
      traverseCommit dels = some ts →
      commitKids rootDom wip = some t2 →
      commitRootTrace dels rootDom wip = some (ts.flatten ++ t2)) ∧
    (∀ (p d : Nat) (f : DFiber), f.effectTag = some .DELETION →
      f.dom = some d → commitEffect (some p) f = some [DomMut.removeChild p d]) ∧
    (∀ (pd : Option Nat) (f : DFiber), f.effectTag = some .DELETION →
      f.dom = none → commitEffect pd f = some []) := by
  refine ⟨?_, ?_, ?_⟩
  · intro dels rootDom wip ts t2 h1 h2
    simp [commitRootTrace, h1, h2]
  · intro p d f ht hd
    simp [commitEffect, ht, hd]
  · intro pd f ht hd
    simp [commitEffect, ht, hd]

/-- C3, witness: one queued deletion (host node `5` under parent `0`)
followed by a finished tree placing host node `9` under root `1`; the trace
is the removal followed by the insertion, and the two detach rules evaluate
on concrete fibers. -/
theorem commitRoot_deletions_first_and_detach_witness :
    commitRootTrace
        [⟨some 0, .dcons (.mk (some 5) (some .DELETION) [] none .dnil) .dnil⟩]
        (some 1)
        (.dcons (.mk (some 9) (some .PLACEMENT) [] none .dnil) .dnil) =
      some (([[DomMut.removeChild 0 5]] : List (List DomMut)).flatten ++
        [DomMut.appendChild 1 9]) ∧
    commitEffect (some 0) (.mk (some 5) (some .DELETION) [] none .dnil) =
      some [DomMut.removeChild 0 5] ∧
    commitEffect (some 0) (.mk none (some .DELETION) [] none .dnil) = some [] := by
  refine ⟨?_, ?_, ?_⟩
  · exact commitRoot_deletions_first_and_detach.1
      [⟨some 0, .dcons (.mk (some 5) (some .DELETION) [] none .dnil) .dnil⟩]
      (some 1)
      (.dcons (.mk (some 9) (some .PLACEMENT) [] none .dnil) .dnil)
      [[DomMut.removeChild 0 5]] [DomMut.appendChild 1 9] (by decide) (by decide)
  · exact commitRoot_deletions_first_and_detach.2.1 0 5
      (.mk (some 5) (some .DELETION) [] none .dnil) (by decide) (by decide)
  · exact commitRoot_deletions_first_and_detach.2.2 (some 0)
      (.mk none (some .DELETION) [] none .dnil) (by decide) (by decide)

/-! ## C2 — render-loop ordering -/

theorem wsize_pos (t : WTree) : 1 ≤ wsize t := by
  cases t with
  | node i kids => simp [wsize]

theorem runLoop_none (fuel : Nat) : runLoop fuel none = [] := by
  cases fuel <;> rfl

theorem restOf_cons : ∀ (ks : WKids) (i : Nat) (rs : WKids)
    (st : List (Nat × WKids)),
    restOf ks ((i, rs) :: st) =
      eulerKids ks ++ (REvent.complete i :: restOf rs st)
  | .wnil, i, rs, st => by simp [restOf, eulerKids]
  | .wcons t rest, i, rs, st => by
    simp [restOf, eulerKids, restOf_cons rest i rs st]

theorem unwindStep_spec : ∀ (stack : List (Nat × WKids)) (rights : WKids),
    ((unwindStep rights stack).2 = none ∧
      (unwindStep rights stack).1 = restOf rights stack) ∨
    (∃ c rs st, (unwindStep rights stack).2 = some (c, rs, st) ∧
      (unwindStep rights stack).1 ++ (euler c ++ restOf rs st) =
        restOf rights stack ∧
      wsize c + wsizeK rs + stackSize st ≤ wsizeK rights + stackSize stack) := by
  intro stack
  induction stack with
  | nil =>
    intro rights
    cases rights with
    | wnil => exact Or.inl ⟨rfl, by simp [unwindStep, restOf]⟩
    | wcons s rs =>
      exact Or.inr ⟨s, rs, [], rfl, by simp [unwindStep, restOf],
        by simp [wsizeK]⟩
  | cons fr st ih =>
    intro rights
    cases rights with
    | wcons s rs =>
      exact Or.inr ⟨s, rs, fr :: st, rfl, by simp [unwindStep, restOf],
        by simp [wsizeK]⟩
    | wnil =>
      obtain ⟨pid, prights⟩ := fr
      rcases ih prights with ⟨hn, he⟩ | ⟨c, rs, st2, hs, he, hsz⟩
      · refine Or.inl ⟨by simp [unwindStep, hn], ?_⟩
        simp [unwindStep, restOf, he]
      · refine Or.inr ⟨c, rs, st2, by simp [unwindStep, hs], ?_, ?_⟩
        · simp [unwindStep, restOf, ← he]
        · calc wsize c + wsizeK rs + stackSize st2
              ≤ wsizeK prights + stackSize st := hsz
            _ ≤ wsizeK WKids.wnil + stackSize ((pid, prights) :: st) := by
                simp [wsizeK, stackSize]

theorem runLoop_eq : ∀ (fuel : Nat) (t : WTree) (rights : WKids)
    (stack : List (Nat × WKids)),
    wsize t + wsizeK rights + stackSize stack ≤ fuel →
    runLoop fuel (some (t, rights, stack)) = euler t ++ restOf rights stack := by
  intro fuel
  induction fuel with
  | zero =>
    intro t rights stack h
    exact absurd h (by have := wsize_pos t; omega)
  | succ fuel ih =>
    intro t rights stack h
    obtain ⟨i, kids⟩ := t
    cases kids with
    | wcons c rest =>
      have hs : wsize (WTree.node i (.wcons c rest)) = 1 + (wsize c + wsizeK rest) := by
        simp [wsize, wsizeK]
      have hb : wsize c + wsizeK rest + stackSize ((i, rights) :: stack) ≤ fuel := by
        rw [hs] at h
        simp only [stackSize, List.map_cons, List.sum_cons] at h ⊢
        omega
      rw [show runLoop (fuel + 1) (some (.node i (.wcons c rest), rights, stack)) =
          REvent.begin i ::
            runLoop fuel (some (c, rest, (i, rights) :: stack)) from rfl]
      rw [ih c rest _ hb, restOf_cons]
      simp [euler, eulerKids]
    | wnil =>
      rw [show runLoop (fuel + 1) (some (.node i .wnil, rights, stack)) =
          REvent.begin i :: REvent.complete i ::
            ((unwindStep rights stack).1 ++
              runLoop fuel (unwindStep rights stack).2) from rfl]
      rcases unwindStep_spec stack rights with ⟨hn, he⟩ | ⟨c, rs, st2, hs2, he, hsz⟩
      · rw [hn, runLoop_none, he]
        simp [euler, eulerKids]
      · have h1 : wsize (WTree.node i .wnil) = 1 := by simp [wsize, wsizeK]
        have hb : wsize c + wsizeK rs + stackSize st2 ≤ fuel := by
          rw [h1] at h
          omega
        rw [hs2, ih c rs st2 hb, ← he]
        simp [euler, eulerKids]

theorem renderRootSync_eq_euler (t : WTree) : renderRootSync t = euler t := by
  rw [renderRootSync,
    runLoop_eq (wsize t + 1) t .wnil [] (by simp [wsizeK, stackSize])]
  simp [restOf]

theorem euler_shape (d : WTree) :
    euler d = REvent.begin d.idOf ::
      (eulerKids d.kidsOf ++ [REvent.complete d.idOf]) := by
  cases d with
  | node i kids => simp [euler, WTree.idOf, WTree.kidsOf]

mutual

theorem euler_block_of_subtree (t s : WTree) (h : s ∈ subtreesOf t) :
    ∃ pre post, euler t = pre ++ euler s ++ post :=
  match t with
  | .node i kids => by
    rcases List.mem_cons.1 (by simpa [subtreesOf] using h) with he | ht
    · exact ⟨[], [], by simp [he]⟩
    · obtain ⟨pre, post, hp⟩ := euler_block_of_subtreeK kids s ht
      exact ⟨REvent.begin i :: pre, post ++ [REvent.complete i], by
        simp [euler, hp]⟩

theorem euler_block_of_subtreeK (ks : WKids) (s : WTree)
    (h : s ∈ subtreesKids ks) :
    ∃ pre post, eulerKids ks = pre ++ euler s ++ post :=
  match ks with
  | .wnil => by simp [subtreesKids] at h
  | .wcons t rest => by
    rcases List.mem_append.1 (by simpa [subtreesKids] using h) with h1 | h2
    · obtain ⟨pre, post, hp⟩ := euler_block_of_subtree t s h1
      exact ⟨pre, post ++ eulerKids rest, by simp [eulerKids, hp]⟩
    · obtain ⟨pre, post, hp⟩ := euler_block_of_subtreeK rest s h2
      exact ⟨euler t ++ pre, post, by simp [eulerKids, hp]⟩

end

/-- C2: the `renderRootSync` loop visits nodes so that begin-phase steps are
pre-order and complete-phase steps are post-order.  Concretely: (1) the
loop's event trace is exactly the Euler trace `begin n · (children traces) ·
complete n`; (2) every subtree `s` of the work tree occupies one contiguous
block of the trace that starts with `begin s` and ends with `complete s`;
and (3) the `begin` and `complete` of every node of `s`'s proper subtree lie
strictly inside that block — so a parent's `beginWork` runs before any
descendant's, and a node's `completeWork` runs only after every node of its
subtree (all children with their entire subtrees) has completed. -/
theorem renderRootSync_begin_preorder_complete_postorder (t : WTree) :
    renderRootSync t = euler t ∧
    (∀ s ∈ subtreesOf t, ∃ pre post,
      renderRootSync t =
        pre ++ (REvent.begin s.idOf ::
          (eulerKids s.kidsOf ++ (REvent.complete s.idOf :: post)))) ∧
    (∀ s ∈ subtreesOf t, ∀ d ∈ subtreesKids s.kidsOf,
      REvent.begin d.idOf ∈ eulerKids s.kidsOf ∧
      REvent.complete d.idOf ∈ eulerKids s.kidsOf) := by
  refine ⟨renderRootSync_eq_euler t, ?_, ?_⟩
  · intro s hs
    obtain ⟨pre, post, hp⟩ := euler_block_of_subtree t s hs
    refine ⟨pre, post, ?_⟩
    rw [renderRootSync_eq_euler t, hp, euler_shape s]
    simp
  · intro s _ d hd
    obtain ⟨pre, post, hp⟩ := euler_block_of_subtreeK s.kidsOf d hd
    rw [hp, euler_shape d]
    constructor
    · simp
    · refine List.mem_append_left _ (List.mem_append_right _ ?_)
      simp

/-- C2, witness: the three-node tree `0(1, 2(3))`, with the contiguity block
taken at the subtree rooted at `2` and the inner node `3`. -/
theorem renderRootSync_order_witness :
    renderRootSync (.node 0 (.wcons (.node 1 .wnil)
        (.wcons (.node 2 (.wcons (.node 3 .wnil) .wnil)) .wnil))) =
      euler (.node 0 (.wcons (.node 1 .wnil)
        (.wcons (.node 2 (.wcons (.node 3 .wnil) .wnil)) .wnil))) ∧
    (∃ pre post,
      renderRootSync (.node 0 (.wcons (.node 1 .wnil)
          (.wcons (.node 2 (.wcons (.node 3 .wnil) .wnil)) .wnil))) =
        pre ++ (REvent.begin (WTree.node 2 (.wcons (.node 3 .wnil) .wnil)).idOf ::
          (eulerKids (WTree.node 2 (.wcons (.node 3 .wnil) .wnil)).kidsOf ++
            (REvent.complete
              (WTree.node 2 (.wcons (.node 3 .wnil) .wnil)).idOf :: post)))) ∧
    (REvent.begin (WTree.node 3 .wnil).idOf ∈
        eulerKids (WTree.node 2 (.wcons (.node 3 .wnil) .wnil)).kidsOf ∧
      REvent.complete (WTree.node 3 .wnil).idOf ∈
        eulerKids (WTree.node 2 (.wcons (.node 3 .wnil) .wnil)).kidsOf) := by
  have h := renderRootSync_begin_preorder_complete_postorder
    (.node 0 (.wcons (.node 1 .wnil)
      (.wcons (.node 2 (.wcons (.node 3 .wnil) .wnil)) .wnil)))
  exact ⟨h.1, h.2.1 _ (by decide), h.2.2 _ (by decide) _ (by decide)⟩

/-! ## C10 — appendChildren and nearest host-bearing descendants -/

theorem csize_pos (f : CFiber) : 1 ≤ csize f := by
  cases f with
  | mk tag sn kids => simp [csize]

theorem cAscend_spec : ∀ (stack : List CKids) (rights : CKids),
    (cAscend rights stack = none ∧
      collectNearestK rights ++ (stack.map collectNearestK).flatten = []) ∨
    (∃ c rs st, cAscend rights stack = some (c, rs, st) ∧
      collectNearestK rights ++ (stack.map collectNearestK).flatten =
        collectNearest c ++ (collectNearestK rs ++
          (st.map collectNearestK).flatten) ∧
      csize c + csizeK rs + (st.map csizeK).sum ≤
        csizeK rights + (stack.map csizeK).sum ∧
      (cWFK rights = true → (∀ ks ∈ stack, cWFK ks = true) →
        cWF c = true ∧ cWFK rs = true ∧ ∀ ks ∈ st, cWFK ks = true) ∧
      (cHostsOkK rights = true → (∀ ks ∈ stack, cHostsOkK ks = true) →
        cHostsOk c = true ∧ cHostsOkK rs = true ∧
          ∀ ks ∈ st, cHostsOkK ks = true)) := by
  intro stack
  induction stack with
  | nil =>
    intro rights
    cases rights with
    | cnil => exact Or.inl ⟨rfl, by simp [collectNearestK]⟩
    | ccons s rs =>
      refine Or.inr ⟨s, rs, [], rfl, by simp [collectNearestK], by simp [csizeK],
        ?_, ?_⟩
      · intro hr _
        simp [cWFK] at hr
        exact ⟨hr.1, hr.2, by simp⟩
      · intro hr _
        simp [cHostsOkK] at hr
        exact ⟨hr.1, hr.2, by simp⟩
  | cons top rest ih =>
    intro rights
    cases rights with
    | ccons s rs =>
      refine Or.inr ⟨s, rs, top :: rest, rfl, by simp [collectNearestK],
        by simp [csizeK], ?_, ?_⟩
      · intro hr hst
        simp [cWFK] at hr
        exact ⟨hr.1, hr.2, hst⟩
      · intro hr hst
        simp [cHostsOkK] at hr
        exact ⟨hr.1, hr.2, hst⟩
    | cnil =>
      rcases ih top with ⟨hn, hc⟩ | ⟨c, rs, st, hs, hc, hsz, hwf, hok⟩
      · exact Or.inl ⟨by simp [cAscend, hn], by
          simpa [collectNearestK] using hc⟩
      · refine Or.inr ⟨c, rs, st, by simp [cAscend, hs], by
          simpa [collectNearestK] using hc, ?_, ?_, ?_⟩
        · calc csize c + csizeK rs + (st.map csizeK).sum
              ≤ csizeK top + (rest.map csizeK).sum := hsz
            _ ≤ csizeK CKids.cnil + ((top :: rest).map csizeK).sum := by
                simp [csizeK]
        · intro _ hst
          exact hwf (hst top (by simp)) (fun ks hks => hst ks (by simp [hks]))
        · intro _ hst
          exact hok (hst top (by simp)) (fun ks hks => hst ks (by simp [hks]))

theorem appendLoop_eq : ∀ (fuel : Nat) (cur : CFiber) (rights : CKids)
    (stack : List CKids),
    csize cur + csizeK rights + (stack.map csizeK).sum ≤ fuel →
    cWF cur = true → cWFK rights = true → (∀ ks ∈ stack, cWFK ks = true) →
    appendLoop fuel cur rights stack =
      some (collectNearest cur ++ (collectNearestK rights ++
        (stack.map collectNearestK).flatten)) := by
  intro fuel
  induction fuel with
  | zero =>
    intro cur rights stack h
    exact absurd h (by have := csize_pos cur; omega)
  | succ fuel ih =>
    intro cur rights stack h hwf hwr hws
    obtain ⟨tag, sn, kids⟩ := cur
    by_cases htag : tag = .HostComponent ∨ tag = .HostText
    · have hsome : sn.isSome = true := by
        unfold cWF at hwf
        rwa [if_pos htag] at hwf
      obtain ⟨d, rfl⟩ := Option.isSome_iff_exists.1 hsome
      have hcol : collectNearest (.mk tag (some d) kids) = [d] := by
        simp [collectNearest, htag]
      rcases cAscend_spec stack rights with ⟨hn, hc⟩ | ⟨c, rs, st, hs, hc, hsz, hwfp, _⟩
      · rw [show appendLoop (fuel + 1) (.mk tag (some d) kids) rights stack =
            some [d] from by simp [appendLoop, htag, hn]]
        rw [hcol, hc]
        simp
      · have hb : csize c + csizeK rs + (st.map csizeK).sum ≤ fuel := by
          have h1 := csize_pos (.mk tag (some d) kids)
          omega
        obtain ⟨hwc, hwrs, hwst⟩ := hwfp hwr hws
        rw [show appendLoop (fuel + 1) (.mk tag (some d) kids) rights stack =
            (appendLoop fuel c rs st).map (fun l => d :: l) from by
          simp [appendLoop, htag, hs]]
        rw [ih c rs st hb hwc hwrs hwst]
        rw [hcol, hc]
        rfl
    · have hkids : (∃ c cs, kids = .ccons c cs) ∧ cWFK kids = true := by
        cases kids with
        | cnil => simp [cWF, htag] at hwf
        | ccons c cs =>
          refine ⟨⟨c, cs, rfl⟩, ?_⟩
          simpa [cWF, htag] using hwf
      obtain ⟨⟨c, cs, rfl⟩, hwk⟩ := hkids
      have hcc : cWF c = true ∧ cWFK cs = true := by
        simpa [cWFK] using hwk
      have hb : csize c + csizeK cs + ((rights :: stack).map csizeK).sum ≤ fuel := by
        have : csize (CFiber.mk tag sn (.ccons c cs)) =
            1 + (csize c + csizeK cs) := by simp [csize, csizeK]
        rw [this] at h
        simp only [List.map_cons, List.sum_cons] at h ⊢
        omega
      rw [show appendLoop (fuel + 1) (.mk tag sn (.ccons c cs)) rights stack =
          appendLoop fuel c cs (rights :: stack) from by
        simp [appendLoop, htag]]
      rw [ih c cs (rights :: stack) hb hcc.1 hcc.2 (by
        intro ks hks
        rcases List.mem_cons.1 hks with rfl | hks'
        · exact hwr
        · exact hws ks hks')]
      have : collectNearest (.mk tag sn (.ccons c cs)) =
          collectNearest c ++ collectNearestK cs := by
        simp [collectNearest, collectNearestK, htag]
      rw [this]
      simp

theorem appendLoop_isSome : ∀ (fuel : Nat) (cur : CFiber) (rights : CKids)
    (stack : List CKids),
    csize cur + csizeK rights + (stack.map csizeK).sum ≤ fuel →
    cHostsOk cur = true → cHostsOkK rights = true →
    (∀ ks ∈ stack, cHostsOkK ks = true) →
    (appendLoop fuel cur rights stack).isSome = true := by
  intro fuel
  induction fuel with
  | zero =>
    intro cur rights stack h
    exact absurd h (by have := csize_pos cur; omega)
  | succ fuel ih =>
    intro cur rights stack h hok hor hos
    obtain ⟨tag, sn, kids⟩ := cur
    by_cases htag : tag = .HostComponent ∨ tag = .HostText
    · have hsome : sn.isSome = true := by
        unfold cHostsOk at hok
        rwa [if_pos htag] at hok
      obtain ⟨d, rfl⟩ := Option.isSome_iff_exists.1 hsome
      rcases cAscend_spec stack rights with ⟨hn, _⟩ | ⟨c, rs, st, hs, _, hsz, _, hokp⟩
      · rw [show appendLoop (fuel + 1) (.mk tag (some d) kids) rights stack =
            some [d] from by simp [appendLoop, htag, hn]]
        rfl
      · have hb : csize c + csizeK rs + (st.map csizeK).sum ≤ fuel := by
          have h1 := csize_pos (.mk tag (some d) kids)
          omega
        obtain ⟨hoc, hors, host2⟩ := hokp hor hos
        rw [show appendLoop (fuel + 1) (.mk tag (some d) kids) rights stack =
            (appendLoop fuel c rs st).map (fun l => d :: l) from by
          simp [appendLoop, htag, hs]]
        rcases Option.isSome_iff_exists.1 (ih c rs st hb hoc hors host2) with
          ⟨l, hl⟩
        rw [hl]
        rfl
    · unfold cHostsOk at hok
      rw [if_neg htag] at hok
      cases kids with
      | cnil =>
        rw [show appendLoop (fuel + 1) (.mk tag sn .cnil) rights stack =
            some [] from by simp [appendLoop, htag]]
        rfl
      | ccons c cs =>
        have hcc : cHostsOk c = true ∧ cHostsOkK cs = true := by
          unfold cHostsOkK at hok
          simpa using hok
        have hb : csize c + csizeK cs + ((rights :: stack).map csizeK).sum ≤
            fuel := by
          have hs1 : csize (CFiber.mk tag sn (.ccons c cs)) =
              1 + (csize c + csizeK cs) := by simp [csize, csizeK]
          rw [hs1] at h
          simp only [List.map_cons, List.sum_cons] at h ⊢
          omega
        rw [show appendLoop (fuel + 1) (.mk tag sn (.ccons c cs)) rights stack =
            appendLoop fuel c cs (rights :: stack) from by
          simp [appendLoop, htag]]
        refine ih c cs (rights :: stack) hb hcc.1 hcc.2 ?_
        intro ks hks
        rcases List.mem_cons.1 hks with rfl | hks'
        · exact hor
        · exact hos ks hks'

/-- C10 (amended): `appendChildren` never throws — on any subtree whose
host/text fibers all carry a `stateNode` the walk terminates normally (in
particular a subtree of childless component fibers contributes no host nodes
and returns) — and it appends exactly the nearest host-bearing descendants,
in order, **provided** every non-host fiber in the searched region has at
least one child; when the walk descends into a childless component fiber the
cursor becomes `null` and the loop stops early, skipping every remaining
unvisited sibling (see the counterexample). -/
theorem appendChildren_nearest_hosts :
    (∀ wip : CFiber, cHostsOkK wip.kidsOf = true →
      (appendChildren wip).isSome = true) ∧
    (∀ wip : CFiber, cWFK wip.kidsOf = true →
      appendChildren wip = some (nearestHostDoms wip)) := by
  constructor
  · intro wip hok
    obtain ⟨tag, sn, kids⟩ := wip
    cases kids with
    | cnil => rfl
    | ccons c cs =>
      simp only [CFiber.kidsOf] at hok
      have hcc : cHostsOk c = true ∧ cHostsOkK cs = true := by
        unfold cHostsOkK at hok
        simpa using hok
      rw [show appendChildren (.mk tag sn (.ccons c cs)) =
          appendLoop (csize (.mk tag sn (.ccons c cs)) + 1) c cs [] from by
        simp [appendChildren, CFiber.kidsOf]]
      refine appendLoop_isSome _ c cs [] ?_ hcc.1 hcc.2 (by simp)
      have hs1 : csize (CFiber.mk tag sn (.ccons c cs)) =
          1 + (csize c + csizeK cs) := by simp [csize, csizeK]
      rw [hs1]
      simp
      omega
  · intro wip hwf
    obtain ⟨tag, sn, kids⟩ := wip
    cases kids with
    | cnil => rfl
    | ccons c cs =>
      simp only [CFiber.kidsOf] at hwf
      have hcc : cWF c = true ∧ cWFK cs = true := by
        unfold cWFK at hwf
        simpa using hwf
      rw [show appendChildren (.mk tag sn (.ccons c cs)) =
          appendLoop (csize (.mk tag sn (.ccons c cs)) + 1) c cs [] from by
        simp [appendChildren, CFiber.kidsOf]]
      rw [appendLoop_eq _ c cs [] ?_ hcc.1 hcc.2 (by simp)]
      · rw [show nearestHostDoms (.mk tag sn (.ccons c cs)) =
            collectNearest c ++ collectNearestK cs from by
          simp [nearestHostDoms, CFiber.kidsOf, collectNearestK]]
        simp
      · have hs1 : csize (CFiber.mk tag sn (.ccons c cs)) =
            1 + (csize c + csizeK cs) := by simp [csize, csizeK]
        rw [hs1]
        simp
        omega

/-- C10, counterexample: under a host parent, a childless component fiber
followed by a host sibling carrying host node `5`.  The nearest host-bearing
descendants are `[5]`, but the source walk descends into the childless
component, its cursor becomes `null`, and the loop exits — appending
nothing. -/
theorem appendChildren_skips_after_childless_component :
    appendChildren (.mk .HostComponent (some 1)
        (.ccons (.mk .FunctionComponent none .cnil)
          (.ccons (.mk .HostComponent (some 5) .cnil) .cnil))) = some [] ∧
    nearestHostDoms (.mk .HostComponent (some 1)
        (.ccons (.mk .FunctionComponent none .cnil)
          (.ccons (.mk .HostComponent (some 5) .cnil) .cnil))) = [5] ∧
    some ([] : List Nat) ≠ some [5] := by
  refine ⟨by decide, by decide, by decide⟩

/-- C10, witness: an all-component childless subtree terminates normally with
no appends, and a well-formed subtree (component wrapping host `5`, then a
text fiber `6`) appends exactly its nearest host-bearing descendants. -/
theorem appendChildren_nearest_hosts_witness :
    (appendChildren (.mk .HostRoot none
        (.ccons (.mk .FunctionComponent none .cnil) .cnil))).isSome = true ∧
    appendChildren (.mk .HostComponent (some 1)
        (.ccons (.mk .FunctionComponent none
            (.ccons (.mk .HostComponent (some 5) .cnil) .cnil))
          (.ccons (.mk .HostText (some 6) .cnil) .cnil))) =
      some (nearestHostDoms (.mk .HostComponent (some 1)
        (.ccons (.mk .FunctionComponent none
            (.ccons (.mk .HostComponent (some 5) .cnil) .cnil))
          (.ccons (.mk .HostText (some 6) .cnil) .cnil)))) :=
  ⟨appendChildren_nearest_hosts.1 _ (by decide),
    appendChildren_nearest_hosts.2 _ (by decide)⟩
